import Mathlib

/-!
Verification of the DemandManagement residential smart-grid simulator.

We give a shallow embedding of the core of the simulator (Profile
time-series, Battery / Accumulator / Machine appliance scheduling,
Connection cheap-minute realization, Grid target-demand computation and
the CLI argument handling) and prove or refute the claims of the
specification against it.

Modelling conventions:
* timestamps are integers counting minutes (a day is 1440 minutes);
* 64-bit floating point values of the source are modelled by `ℚ`;
* numpy arrays are modelled by `List ℚ` (resp. `List ℤ` for the integer
  limit arrays of the accumulator SMART algorithm);
* Python / numpy operations that raise (broadcasting mismatches,
  negative-size allocations, negative pad widths) are modelled by
  `Option`-returning functions that yield `none` exactly on the raising
  inputs;
* random sampling is modelled by passing the sampled outcome as an
  explicit argument (an oracle), so theorems quantify over all outcomes.
-/

namespace DemandManagement

/-! ### Generic list helpers (Python / numpy semantics) -/

/-- Normalize a Python slice endpoint for a list of length `n`:
negative indices count from the end, then the result is clamped
to `[0, n]`. -/
def pyIdx (n : ℕ) (i : ℤ) : ℕ :=
  if i < 0 then (max 0 ((n : ℤ) + i)).toNat else (min i (n : ℤ)).toNat

/-- Python slice `l[a:b]` (contiguous, step 1). -/
def pySlice (l : List ℚ) (a b : ℤ) : List ℚ :=
  let a' := pyIdx l.length a
  let b' := pyIdx l.length b
  (l.drop a').take (b' - a')

/-- numpy slice assignment `l[a:b] = vals`.  Returns `none` when the
shapes do not match (numpy raises a broadcast error). -/
def pySliceAssign (l : List ℚ) (a b : ℤ) (vals : List ℚ) : Option (List ℚ) :=
  let a' := pyIdx l.length a
  let b' := pyIdx l.length b
  if vals.length = b' - a' then
    some (l.take a' ++ vals ++ l.drop (a' + (b' - a')))
  else
    none

/-- numpy elementwise addition assignment `l[a:b] += vals`. -/
def pySliceAddAssign (l : List ℚ) (a b : ℤ) (vals : List ℚ) : Option (List ℚ) :=
  let a' := pyIdx l.length a
  let b' := pyIdx l.length b
  if vals.length = b' - a' then
    some (l.take a' ++ (List.zipWith (· + ·) ((l.drop a').take (b' - a')) vals)
      ++ l.drop (a' + (b' - a')))
  else
    none

/-- `ndarray.resize(n)`: truncate or zero-pad to length `n`
(raises on negative size). -/
def npResize (l : List ℚ) (n : ℤ) : Option (List ℚ) :=
  if n < 0 then none
  else some ((l.take n.toNat) ++ List.replicate (n.toNat - l.length) 0)

/-- numpy cumulative sum. -/
def npCumsum (l : List ℚ) : List ℚ :=
  (l.scanl (· + ·) 0).drop 1

/-! ### Profile (src/simulator/simulator/profile.py)

A `Profile` is a minute-aligned time series: an optional anchor
timestamp and a list of stored values. -/

structure Profile where
  startingDT : Option ℤ
  values : List ℚ
  deriving Repr, DecidableEq

namespace Profile

/-- `minutesBetween` of the source: signed number of minutes. -/
def minutesBetween (startDT endDT : ℤ) : ℤ := endDT - startDT

/-- `Profile.get(fromDT, toDT)`: windowed read, zero-padded after the
stored range.  Mirrors

```
startIndex = minutesBetween(startingDT, fromDT)
length     = minutesBetween(fromDT, toDT)
res        = zeros(length)
stopIndex  = min(values.size, minutesBetween(startingDT, toDT))
res[:stopIndex-startIndex] = values[startIndex:stopIndex]
```

`none` models a raised exception (`numpy.zeros` of a negative length,
or the broadcast error when the two slices differ in length, which
happens for reads starting before the anchor). -/
def get (p : Profile) (fromDT toDT : ℤ) : Option (List ℚ) :=
  match p.startingDT with
  | none =>
      if toDT - fromDT < 0 then none
      else some (List.replicate (toDT - fromDT).toNat 0)
  | some t0 =>
      let startIndex : ℤ := minutesBetween t0 fromDT
      let length : ℤ := minutesBetween fromDT toDT
      if length < 0 then none
      else
        let stopIndex : ℤ := min (p.values.length : ℤ) (minutesBetween t0 toDT)
        let seg := pySlice p.values startIndex stopIndex
        let c : ℤ := stopIndex - startIndex
        let targetLen : ℕ := pyIdx length.toNat c
        if seg.length = targetLen then
          some (seg ++ List.replicate (length.toNat - targetLen) 0)
        else none

/-- `Profile.set(fromDT, newValues)`: overwrite, growing the storage if
needed. -/
def set (p : Profile) (fromDT : ℤ) (newValues : List ℚ) : Option Profile :=
  match p.startingDT with
  | none => some ⟨some fromDT, newValues⟩
  | some t0 =>
      let startIndex : ℤ := minutesBetween t0 fromDT
      let newSize : ℤ := startIndex + newValues.length
      let resized : Option (List ℚ) :=
        if newSize > (p.values.length : ℤ) then npResize p.values newSize
        else some p.values
      match resized with
      | none => none
      | some vs =>
          match pySliceAssign vs startIndex (startIndex + newValues.length) newValues with
          | none => none
          | some vs2 => some ⟨some t0, vs2⟩

/-- `Profile.add(fromDT, valuesToAdd)`: elementwise accumulate, growing
the storage if needed. -/
def add (p : Profile) (fromDT : ℤ) (valuesToAdd : List ℚ) : Option Profile :=
  let t0 := p.startingDT.getD fromDT
  let startIndex : ℤ := minutesBetween t0 fromDT
  let newSize : ℤ := startIndex + valuesToAdd.length
  let resized : Option (List ℚ) :=
    if newSize > (p.values.length : ℤ) then npResize p.values newSize
    else some p.values
  match resized with
  | none => none
  | some vs =>
      match pySliceAddAssign vs startIndex (startIndex + valuesToAdd.length) valuesToAdd with
      | none => none
      | some vs2 => some ⟨some t0, vs2⟩

/-- `Profile.transition(fromDT, newValues)`: cosine crossfade from the
stored tail to `newValues`.

The cosine weights `(cos(linspace(0, π, overlap, endpoint=False))+1)/2`
are transcendental, so the weight vector is supplied by the parameter
`ratioFn : ℕ → List ℚ` (`ratioFn n` stands for the length-`n` weight
list; theorems assume of it only properties the cosine weights have,
e.g. entries in `[0,1]` and first entry `1`). -/
def transition (ratioFn : ℕ → List ℚ) (p : Profile) (fromDT : ℤ)
    (newValues : List ℚ) : Option Profile :=
  match p.startingDT with
  | none => p.set fromDT newValues
  | some t0 =>
      let startIndex : ℤ := minutesBetween t0 fromDT
      let overlappingValues : ℤ := (p.values.length : ℤ) - startIndex
      let newSize : ℤ := startIndex + newValues.length
      let resized : Option (List ℚ) :=
        if newSize > (p.values.length : ℤ) then npResize p.values newSize
        else some p.values
      match resized with
      | none => none
      | some vs =>
          if overlappingValues = 0 then
            -- `self.values = numpy.append(self.values, newValues)`
            -- (note: this appends after the zero-padding of the resize)
            some ⟨some t0, vs ++ newValues⟩
          else if overlappingValues < 0 then
            match pySliceAssign vs startIndex (vs.length : ℤ) newValues with
            | none => none
            | some vs2 => some ⟨some t0, vs2⟩
          else
            let ov := overlappingValues.toNat
            -- numpy.pad raises on a negative pad width
            if (newValues.length : ℤ) < overlappingValues then none
            else
              let oldValues := vs.drop startIndex.toNat
              let ratio := ratioFn ov
              let oldMask := ratio ++ List.replicate (newValues.length - ov) 0
              let newMask := (ratio.map (fun r => 1 - r)) ++
                List.replicate (newValues.length - ov) 1
              let blended := List.zipWith (· + ·)
                (List.zipWith (· * ·) oldValues oldMask)
                (List.zipWith (· * ·) newValues newMask)
              match pySliceAssign vs startIndex (vs.length : ℤ) blended with
              | none => none
              | some vs2 => some ⟨some t0, vs2⟩

end Profile

/-! ### More numpy-style helpers -/

/-- Sequential positional writes `l[i] = v` (numpy fancy-indexing
assignment with an index array). -/
def writeAll (l : List ℚ) (ps : List (ℕ × ℚ)) : List ℚ :=
  ps.foldl (fun acc p => acc.set p.1 p.2) l

/-- numpy scalar slice fill `l[a:b] = v` (scalar broadcasting; indices
clamped to the array length). -/
def fillSlice (l : List ℚ) (a b : ℕ) (v : ℚ) : List ℚ :=
  let a2 := min a l.length
  let b2 := min b l.length
  l.take a2 ++ List.replicate (b2 - a2) v ++ l.drop (max a2 b2)

/-- Insert an index into a price-sorted index list (helper for
`argsort`). -/
def insertIdx (prices : List ℚ) (i : ℕ) : List ℕ → List ℕ
  | [] => [i]
  | j :: js =>
      if prices.getD i 0 ≤ prices.getD j 0 then i :: j :: js
      else j :: insertIdx prices i js

/-- `numpy.argsort(prices)` restricted to the index list `idxs`:
sorts indices by their price (insertion sort; any price-nondecreasing
order is a faithful model, the algorithms below are insensitive to the
tie-breaking of the library sort). -/
def argsort (prices : List ℚ) (idxs : List ℕ) : List ℕ :=
  idxs.foldr (insertIdx prices) []

/-! ### Battery (electric car), src/simulator/simulator/appliance.py -/

namespace Battery

/-- One day of `Battery.calculateSmartDemand`: charge during the
`slotsToChargeCompletely` cheapest connected slots, the last of them
carrying the fractional remainder.  `prices` is
`priceProfile.get(midnight, midnight+2*oneDay)` (2880 entries). -/
def smartPowerProfile (prices : List ℚ) (connectionSlot disconnectionSlot : ℕ)
    (chargeNeeded chargingPower : ℚ) : List ℚ :=
  let chargePerSlot := chargingPower / 60
  let slotsToChargeCompletely : ℤ := ⌈chargeNeeded / chargePerSlot⌉
  let profile : List ℚ := List.replicate 2880 0
  if 0 < slotsToChargeCompletely then
    if (disconnectionSlot : ℤ) - connectionSlot ≤ slotsToChargeCompletely then
      fillSlice profile connectionSlot disconnectionSlot chargingPower
    else
      -- argpartition of the window by price, keeping the cheapest slots
      let windowIdxs := List.range' connectionSlot (disconnectionSlot - connectionSlot)
      let cheapestSlots := (argsort prices windowIdxs).take slotsToChargeCompletely.toNat
      let profile := writeAll profile (cheapestSlots.dropLast.map (fun i => (i, chargingPower)))
      let lastSlotCharge := chargeNeeded - chargePerSlot * (slotsToChargeCompletely - 1)
      profile.set (cheapestSlots.getLastD 0) (lastSlotCharge * 60)
  else profile

/-- One day of `Battery.calculateUncontrolledDemand`: start charging at
`connectionSlot`; the first `slotsToChargeCompletely - 1` slots get full
power, the slot at `connectionSlot + slotsToChargeCompletely` gets the
fractional remainder (the source leaves the slot in between at zero). -/
def uncontrolledPowerProfile (connectionSlot disconnectionSlot : ℕ)
    (chargeNeeded chargingPower : ℚ) : List ℚ :=
  let chargePerSlot := chargingPower / 60
  let slotsToChargeCompletely : ℤ := ⌈chargeNeeded / chargePerSlot⌉
  let profile : List ℚ := List.replicate 2880 0
  if 0 < slotsToChargeCompletely then
    if (disconnectionSlot : ℤ) - connectionSlot < slotsToChargeCompletely then
      fillSlice profile connectionSlot disconnectionSlot chargingPower
    else
      let profile := fillSlice profile connectionSlot
        (connectionSlot + slotsToChargeCompletely.toNat - 1) chargingPower
      let lastSlotCharge := chargeNeeded - chargePerSlot * (slotsToChargeCompletely - 1)
      profile.set (connectionSlot + slotsToChargeCompletely.toNat) (lastSlotCharge * 60)
  else profile

end Battery

/-! ### Machine (dishwasher / washing machine) -/

namespace Machine

/-- `numpy.dot(powerUsageProfile, priceProfile[s:s+runtime])`. -/
def runCost (prices : List ℚ) (usage : List ℚ) (s : ℕ) : ℚ :=
  (List.zipWith (· * ·) usage ((prices.drop s).take usage.length)).sum

/-- One iteration of the candidate loop of
`Machine.calculateSmartDemand`: keep the strictly cheaper slot. -/
def pickStep (prices usage : List ℚ) (best : ℕ × Option ℚ) (s : ℕ) :
    ℕ × Option ℚ :=
  let slotPrice := runCost prices usage s
  match best.2 with
  | none => (s, some slotPrice)
  | some bp => if slotPrice < bp then (s, some slotPrice) else best

/-- The starting slot chosen by `Machine.calculateSmartDemand`:
try every slot in `[startAfterSlot, finishBySlot - runtime)` and keep
the first one with the strictly cheapest run cost (initial candidate
`startAfterSlot` with price `+∞`, modelled by `none`). -/
def cheapestSlot (prices : List ℚ) (usage : List ℚ)
    (startAfterSlot finishBySlot : ℕ) : ℕ :=
  let runtime := usage.length
  if startAfterSlot + runtime < finishBySlot then
    let candidates := List.range' startAfterSlot (finishBySlot - runtime - startAfterSlot)
    (candidates.foldl (pickStep prices usage) (startAfterSlot, none)).1
  else startAfterSlot

end Machine

/-! ### Accumulator (water heater / fridge / A/C / heating) -/

namespace Accumulator

/-- One minute of `Accumulator.calculateUncontrolledDemand`:
discharge, then charge iff `charge + chargingRate < capacity`. -/
def uncontrolledStep (chargingRate capacity : ℚ) (charge d : ℚ) : ℚ :=
  let c := charge - d
  if c + chargingRate < capacity then c + chargingRate else c

/-- The successive values of the `charge` variable in
`Accumulator.calculateUncontrolledDemand` (head = initial charge,
entry `k+1` = charge after simulated minute `k`).
`dischargingProfile` is in kW, as stored in the appliance memory. -/
def uncontrolledCharges (chargingPower capacity : ℚ)
    (dischargingProfile : List ℚ) (c0 : ℚ) : List ℚ :=
  (dischargingProfile.map (fun d => d / 60)).scanl
    (uncontrolledStep (chargingPower / 60) capacity) c0

/-- The power profile emitted by `Accumulator.calculateUncontrolledDemand`. -/
def uncontrolledPowerProfile (chargingPower capacity : ℚ)
    (dischargingProfile : List ℚ) (c0 : ℚ) : List ℚ :=
  ((dischargingProfile.map (fun d => d / 60)).foldl
    (fun (acc : List ℚ × ℚ) d =>
      let charge := acc.2 - d
      if charge + chargingPower / 60 < capacity then
        (acc.1 ++ [chargingPower], charge + chargingPower / 60)
      else (acc.1 ++ [0], charge))
    ([], c0)).1

/-! The SMART algorithm.  The integer limit arrays are `List ℤ`;
the four preparation loops of the source are `forwardPass`,
`backwardPass`, `capLowerGo`, `capUpperGo`. -/

/-- Forward pass `if a[i+1] < a[i]: a[i+1] = a[i]` (running maximum). -/
def forwardPassGo (prev : ℤ) : List ℤ → List ℤ
  | [] => []
  | y :: ys =>
      let y2 := if y < prev then prev else y
      y2 :: forwardPassGo y2 ys

/-- Forward pass over the whole array. -/
def forwardPass : List ℤ → List ℤ
  | [] => []
  | x :: xs => x :: forwardPassGo x xs

/-- Backward pass `for i descending: if a[i] < a[i+1] - 1: a[i] = a[i+1] - 1`
(each cell is updated against the already-updated right neighbour). -/
def backwardPass : List ℤ → List ℤ
  | [] => []
  | x :: xs =>
      let rest := backwardPass xs
      match rest with
      | [] => [x]
      | y :: _ => (if x < y - 1 then y - 1 else x) :: rest

/-- `for i ascending: if lower[i] > i: lower[i] = i else break`. -/
def capLowerGo (i : ℤ) : List ℤ → List ℤ
  | [] => []
  | x :: xs => if x > i then i :: capLowerGo (i + 1) xs else x :: xs

/-- `for i ascending: if upper[i] > i+1: upper[i] = i+1 else break`. -/
def capUpperGo (i : ℤ) : List ℤ → List ℤ
  | [] => []
  | x :: xs => if x > i + 1 then (i + 1) :: capUpperGo (i + 1) xs else x :: xs

/-- `numpy.argmax` of a boolean array: first `true` index, `0` if none. -/
def npArgmax (l : List Bool) : ℕ := (l.findIdx? id).getD 0

/-- `l[a:] -= 1`. -/
def decFrom : ℕ → List ℤ → List ℤ
  | _, [] => []
  | 0, x :: xs => (x - 1) :: decFrom 0 xs
  | n + 1, x :: xs => x :: decFrom n xs

/-- One iteration of the greedy selection loop of
`Accumulator.calculateSmartDemand`: state is
`(lowerLimit, upperLimit, chargingProfile)`. -/
def greedyStep (st : List ℤ × List ℤ × List ℚ) (slot : ℕ) :
    List ℤ × List ℤ × List ℚ :=
  let low := st.1
  let up := st.2.1
  let prof := st.2.2
  let ls := low.getD slot 0
  if ls < up.getD (slot + 1) 0 ∧ ls < low.getD (low.length - 1) 0 then
    let prof2 := prof.set slot 1
    let a := npArgmax (low.map (fun x => decide (ls < x)))
    let b := npArgmax (up.map (fun x => decide (x = up.getD (slot + 1) 0)))
    (decFrom a low, decFrom b up, prof2)
  else st

/-- `Accumulator.calculateSmartDemand`, returning
`(chargingProfile, powerProfile, newCharge)`.  In the source
`wantedSlots = minutesBetween(fromDT, toDT)` and
`totalSlots = wantedSlots + 1440` (`endMargin = oneDay`); here both are
parameters.  `priceProfile` and `dischargingProfile` (kW) have
`totalSlots` entries.  The source interleaves the forward (resp.
backward) updates of the lower and upper arrays in a single loop; the
two arrays are independent, so they are processed separately here. -/
def calculateSmartDemand (wantedSlots totalSlots : ℕ) (priceProfile : List ℚ)
    (chargingPower : ℚ) (dischargingProfile : List ℚ)
    (startingCharge capacity : ℚ) : List ℚ × List ℚ × ℚ :=
  let chargingRate := chargingPower / 60
  let dischargingRates := dischargingProfile.map (fun d => d / 60)
  let dischargingSum := npCumsum dischargingRates
  let lowerLimit := dischargingSum.map (fun D => ⌈(0 - startingCharge + D) / chargingRate⌉)
  let upperLimit := dischargingSum.map (fun D => ⌊(capacity - startingCharge + D) / chargingRate⌋)
  let lowerLimit := lowerLimit.map (fun x => max x 0)
  let upperLimit := upperLimit.map (fun x => min x (totalSlots : ℤ))
  let lowerLimit := forwardPass lowerLimit
  let upperLimit := forwardPass upperLimit
  let lowerLimit := backwardPass lowerLimit
  let upperLimit := backwardPass upperLimit
  let lowerLimit := capLowerGo 0 lowerLimit
  let upperLimit := capUpperGo 0 upperLimit
  let chargingProfile : List ℚ := List.replicate totalSlots 0
  let lowerLimit := 0 :: lowerLimit
  let upperLimit := 0 :: upperLimit
  let cheapestOrder := argsort priceProfile (List.range priceProfile.length)
  let final := cheapestOrder.foldl greedyStep (lowerLimit, upperLimit, chargingProfile)
  let chargingProfile := final.2.2
  let newCharge := startingCharge - dischargingSum.getD (wantedSlots - 1) 0 +
    (chargingProfile.take wantedSlots).sum * chargingRate
  let powerProfile := (chargingProfile.take wantedSlots).map (fun x => x * chargingPower)
  (chargingProfile, powerProfile, newCharge)

end Accumulator

namespace Accumulator

/-! Specification-level view of the SMART greedy loop: `mA A j` counts
the chosen slots among the first `j` minutes, `ell`/`uu` are the running
lower/upper limit arrays expressed as functions of the chosen set. -/

/-- Number of elements of `A` below `j` (prefix count), as an integer. -/
def mA (A : Finset ℕ) (j : ℕ) : ℤ :=
  ((A.filter (fun x => x < j)).card : ℤ)

/-- The lower-limit array maintained by the greedy loop, as a function of
the chosen slot set `A`: running maximum of the deficits `L k - mA A k`. -/
def ell (L : ℕ → ℤ) (A : Finset ℕ) : ℕ → ℤ
  | 0 => L 0 - mA A 0
  | j + 1 => max (ell L A j) (L (j + 1) - mA A (j + 1))

/-- Fuel-indexed suffix minimum of the slacks `U k - mA A k`
for `k` in `[j, j + d]`. -/
def uuAux (U : ℕ → ℤ) (A : Finset ℕ) (j : ℕ) : ℕ → ℤ
  | 0 => U j - mA A j
  | d + 1 => min (U j - mA A j) (uuAux U A (j + 1) d)

/-- The upper-limit array maintained by the greedy loop, as a function of
the chosen slot set `A`: minimum of the slacks `U k - mA A k` over `[j, N]`. -/
def uu (U : ℕ → ℤ) (A : Finset ℕ) (N j : ℕ) : ℤ :=
  uuAux U A j (N - j)

/-- One step of the greedy selection loop at the level of chosen-slot sets. -/
def specStep (L U : ℕ → ℤ) (N : ℕ) (A : Finset ℕ) (s : ℕ) : Finset ℕ :=
  if ell L A s < uu U A N (s + 1) ∧ ell L A s < ell L A N then insert s A else A

/-- `B` satisfies all prefix lower and upper limits. -/
def okB (L U : ℕ → ℤ) (N : ℕ) (B : Finset ℕ) : Prop :=
  ∀ j ≤ N, L j ≤ mA B j ∧ mA B j ≤ U j

/-- `A` can be completed to a feasible set using only slots from `rest`. -/
def completable (L U : ℕ → ℤ) (N : ℕ) (A : Finset ℕ) (rest : List ℕ) : Prop :=
  ∃ T : Finset ℕ, (∀ t ∈ T, t ∈ rest) ∧ Disjoint A T ∧ okB L U N (A ∪ T)

end Accumulator

/-! ### Connection (src/simulator/simulator/connection.py) -/

namespace Connection

/-- The `cheapIntervalLength == 1` branch of
`Connection.generateRandomCheaperIntervals`: `positions` is the outcome
of sampling `cheapMinutesTotal` distinct minute positions. -/
def cheaperIntervalsL1 (cheapIntervalLength : ℕ) (positions : List ℕ) : List ℚ :=
  writeAll (List.replicate (1440 + 2 * cheapIntervalLength) 0)
    (positions.map (fun p => (p, 1)))

/-- Place one cheap interval centred at the sampled position `c`. -/
def addCheapInterval (cheapIntervalLength : ℕ) (mask : List ℚ) (c : ℕ) : List ℚ :=
  let cheapIntervalStart := cheapIntervalLength + c - cheapIntervalLength / 2
  fillSlice mask cheapIntervalStart (cheapIntervalStart + cheapIntervalLength) 1

/-- The `while numpy.sum(cheaperIntervals) < cheapMinutesTotal` loop of
the `cheapIntervalLength > 1` branch; `centers` is the stream of sampled
interval centres (`none` models a run that exhausts the modelled stream
without reaching the bound — the source would keep sampling). -/
def cheapLoop (cheapIntervalLength : ℕ) (cheapMinutesTotal : ℕ) :
    List ℕ → List ℚ → Option (List ℚ)
  | [], mask =>
      if mask.sum < (cheapMinutesTotal : ℚ) then none else some mask
  | c :: rest, mask =>
      if mask.sum < (cheapMinutesTotal : ℚ) then
        cheapLoop cheapIntervalLength cheapMinutesTotal rest
          (addCheapInterval cheapIntervalLength mask c)
      else some mask

end Connection

/-! ### Grid (src/simulator/simulator/grid.py) -/

namespace Grid

/-- The scaling / shifting / clamping part of
`Grid.calculateTargetDemand` (steps after the peak interpolation).
`baseDemand` is `predictedBaseDemand.get(fromDT-1day, toDT+0.5day)`,
`smoothDemand` the peak-interpolated curve produced from it by the
scipy peak finder (passed as an oracle: the claims verified here do not
depend on its values), `totalExpectedConsumption` the noised expected
household consumption and `intervalLength = minutesBetween(fromDT, toDT)`. -/
def calculateTargetDemandRaw (baseDemand smoothDemand : List ℚ)
    (totalExpectedConsumption : ℚ) (intervalLength : ℕ) : List ℚ :=
  let startIndex := 1440
  let targetDemand := (List.zipWith (· - ·) smoothDemand baseDemand).drop startIndex
  let totalTargetIntervalConsumption := (targetDemand.take intervalLength).sum / 60
  let targetDemand :=
    if totalExpectedConsumption ≤ totalTargetIntervalConsumption then
      targetDemand.map (fun x => x * (totalExpectedConsumption / totalTargetIntervalConsumption))
    else
      targetDemand.map (fun x =>
        x + (totalExpectedConsumption - totalTargetIntervalConsumption) / ((intervalLength : ℚ) / 60))
  targetDemand.map (fun x => max x 0)

/-- `Grid.calculateTargetDemand`: compute the raw target curve and
crossfade it into the stored `targetDemand` profile. -/
def calculateTargetDemand (ratioFn : ℕ → List ℚ) (targetProfile : Profile)
    (fromDT : ℤ) (baseDemand smoothDemand : List ℚ)
    (totalExpectedConsumption : ℚ) (intervalLength : ℕ) : Option Profile :=
  targetProfile.transition ratioFn fromDT
    (calculateTargetDemandRaw baseDemand smoothDemand totalExpectedConsumption intervalLength)

end Grid

/-! ### CLI argument handling (src/simulator/run.py) -/

/-- The argument handling of `run.py`.  `argc = len(sys.argv)`;
`dateParse`, `lengthParse`, `countParse` are the results of
`strptime` / `int()` on the three arguments (`none` = raised
`ValueError`).  The result is `none` exactly when the script calls
`sys.exit(1)`; otherwise it is the `(simulationLength, houseCount)`
pair the simulation is started with. -/
def parseCLI (argc : ℕ) (dateParse : Option ℤ)
    (lengthParse countParse : Option ℤ) : Option (ℤ × ℤ) :=
  if argc ≠ 5 then none
  else
    match dateParse, lengthParse, countParse with
    | some _, some l, some c => some (max 0 l, max 0 c)
    | _, _, _ => none

/-! ### Usage memory (Battery.generateUsage / Machine.generateUsage) -/

/-- `midnightsBetween(startDT, endDT)` of utils.py: `startDT` itself if
it is a midnight, then every following midnight strictly before
`endDT`. -/
def midnightsBetween (startDT endDT : ℤ) : List ℤ :=
  let base := 1440 * (startDT.fdiv 1440)
  let first := if startDT.emod 1440 = 0 then [startDT] else []
  let K := (endDT - base - 1).fdiv 1440
  first ++ (List.range (max K 0).toNat).map (fun i => base + 1440 * ((i : ℤ) + 1))

/-- The `memory.usages` dictionary update shared by
`Battery.generateUsage` and `Machine.generateUsage`: for each date in
order, sample and insert only if the date is not yet present.
`sample` is the randomness oracle. -/
def generateUsages {α : Type} (m : ℤ → Option α) (dates : List ℤ)
    (sample : ℤ → α) : ℤ → Option α :=
  dates.foldl
    (fun m date =>
      if (m date).isSome then m
      else fun x => if x = date then some (sample date) else m x)
    m

/-- `Battery.generateUsage(fromDT, toDT)` fills
`midnightsBetween(fromDT, toDT + oneDay)`. -/
def batteryGenerateUsage {α : Type} (m : ℤ → Option α) (fromDT toDT : ℤ)
    (sample : ℤ → α) : ℤ → Option α :=
  generateUsages m (midnightsBetween fromDT (toDT + 1440)) sample

/-- `Machine.generateUsage(fromDT, toDT)` fills
`midnightsBetween(fromDT, toDT)`. -/
def machineGenerateUsage {α : Type} (m : ℤ → Option α) (fromDT toDT : ℤ)
    (sample : ℤ → α) : ℤ → Option α :=
  generateUsages m (midnightsBetween fromDT toDT) sample

/-!
## Theorems

The remainder of the file proves (or refutes) the claims of the
specification about the definitions above.
-/

/-! ### C9: the uncontrolled accumulator never charges over capacity -/

theorem Accumulator.uncontrolledStep_le (chargingRate capacity charge d : ℚ)
    (hc : charge ≤ capacity) (hd : 0 ≤ d) :
    Accumulator.uncontrolledStep chargingRate capacity charge d ≤ capacity := by
  unfold Accumulator.uncontrolledStep
  dsimp only
  split
  · next h => exact le_of_lt h
  · linarith

theorem Accumulator.scanl_uncontrolled_le (chargingRate capacity : ℚ) :
    ∀ (ds : List ℚ) (c0 : ℚ), c0 ≤ capacity → (∀ d ∈ ds, 0 ≤ d) →
      ∀ c ∈ ds.scanl (Accumulator.uncontrolledStep chargingRate capacity) c0,
        c ≤ capacity := by
  intro ds
  induction ds with
  | nil =>
      intro c0 hc0 _ c hc
      simp only [List.scanl_nil, List.mem_singleton] at hc
      exact hc ▸ hc0
  | cons d ds ih =>
      intro c0 hc0 hd c hc
      simp only [List.scanl_cons, List.singleton_append, List.mem_cons] at hc
      rcases hc with rfl | hc
      · exact hc0
      · exact ih _ (Accumulator.uncontrolledStep_le _ _ _ _ hc0
          (hd d (by simp))) (fun x hx => hd x (by simp [hx])) c hc

/-- C9.  In `Accumulator.calculateUncontrolledDemand` the simulated
charge stays at most `capacity` after every minute, whenever the
pre-call charge is at most `capacity` and the discharging rates are
non-negative: charging happens only when `charge + chargingRate <
capacity`. -/
theorem accumulator_uncontrolled_le_capacity (chargingPower capacity : ℚ)
    (dischargingProfile : List ℚ) (c0 : ℚ) (hc0 : c0 ≤ capacity)
    (hd : ∀ d ∈ dischargingProfile, 0 ≤ d) :
    ∀ c ∈ Accumulator.uncontrolledCharges chargingPower capacity
        dischargingProfile c0, c ≤ capacity := by
  unfold Accumulator.uncontrolledCharges
  refine Accumulator.scanl_uncontrolled_le _ _ _ _ hc0 ?_
  intro d hd2
  rcases List.mem_map.1 hd2 with ⟨x, hx, rfl⟩
  have := hd x hx
  positivity

theorem accumulator_uncontrolled_le_capacity_witness :
    (2 : ℚ) ≤ 2 ∧ (∀ d ∈ [(30 : ℚ), 300, 0], 0 ≤ d) ∧
      ∀ c ∈ Accumulator.uncontrolledCharges 60 2 [(30 : ℚ), 300, 0] 2, c ≤ 2 :=
  ⟨le_refl 2, by decide,
    accumulator_uncontrolled_le_capacity 60 2 [(30 : ℚ), 300, 0] 2 (le_refl 2)
      (by decide)⟩

/-! ### C10: usage memories are write-once -/

theorem generateUsages_preserves {α : Type} (dates : List ℤ) (sample : ℤ → α) :
    ∀ (m : ℤ → Option α) (d : ℤ) (v : α), m d = some v →
      generateUsages m dates sample d = some v := by
  induction dates with
  | nil => intro m d v h; exact h
  | cons date rest ih =>
      intro m d v h
      unfold generateUsages
      simp only [List.foldl_cons]
      by_cases hs : (m date).isSome
      · simp only [hs, if_true]
        exact ih m d v h
      · simp only [hs, if_false]
        refine ih _ d v ?_
        by_cases hde : d = date
        · exfalso
          rw [hde] at h
          rw [h] at hs
          simp at hs
        · simp [hde, h]

/-- C10.  `Battery.generateUsage` and `Machine.generateUsage` never
overwrite a date already present in `memory.usages`: any previously
generated usage entry is returned unchanged after any further call, so
all three policy calculations for a day read the same sampled usage. -/
theorem generate_usage_write_once {α : Type} (m : ℤ → Option α)
    (fromDT toDT : ℤ) (sample : ℤ → α) (d : ℤ) (v : α) (h : m d = some v) :
    batteryGenerateUsage m fromDT toDT sample d = some v ∧
      machineGenerateUsage m fromDT toDT sample d = some v :=
  ⟨generateUsages_preserves _ _ m d v h, generateUsages_preserves _ _ m d v h⟩

theorem generate_usage_write_once_witness :
    (fun x : ℤ => if x = 0 then some 7 else none) 0 = some 7 ∧
      (batteryGenerateUsage (fun x : ℤ => if x = 0 then some 7 else none)
          0 2880 (fun _ => 9) 0 = some 7 ∧
        machineGenerateUsage (fun x : ℤ => if x = 0 then some 7 else none)
          0 2880 (fun _ => 9) 0 = some 7) :=
  ⟨rfl, generate_usage_write_once _ 0 2880 _ 0 7 rfl⟩

/-! ### List update/sum helpers for the fancy-indexing writes -/

theorem List.getD_set_ne (l : List ℚ) : ∀ (i j : ℕ) (v : ℚ), i ≠ j →
    (l.set i v).getD j 0 = l.getD j 0 := by
  induction l with
  | nil => intro i j v _; simp
  | cons x xs ih =>
      intro i j v hij
      cases i with
      | zero =>
          cases j with
          | zero => exact absurd rfl hij
          | succ j => simp [List.set]
      | succ i =>
          cases j with
          | zero => simp [List.set]
          | succ j =>
              simp only [List.set, List.getD_cons_succ]
              exact ih i j v (fun h => hij (by rw [h]))

theorem List.sum_set_eq (l : List ℚ) : ∀ (i : ℕ) (v : ℚ), i < l.length →
    (l.set i v).sum = l.sum - l.getD i 0 + v := by
  induction l with
  | nil => intro i v h; simp at h
  | cons x xs ih =>
      intro i v h
      cases i with
      | zero => simp [List.set]; ring
      | succ i =>
          simp only [List.set, List.sum_cons, List.getD_cons_succ]
          rw [ih i v (by simpa using h)]
          ring

theorem writeAll_getD_not_mem : ∀ (ps : List (ℕ × ℚ)) (l : List ℚ) (j : ℕ),
    j ∉ ps.map Prod.fst → (writeAll l ps).getD j 0 = l.getD j 0 := by
  intro ps
  induction ps with
  | nil => intro l j _; rfl
  | cons pr ps ih =>
      intro l j hj
      simp only [List.map_cons, List.mem_cons] at hj
      push_neg at hj
      unfold writeAll
      simp only [List.foldl_cons]
      rw [show List.foldl (fun acc p => acc.set p.1 p.2) (l.set pr.1 pr.2) ps =
        writeAll (l.set pr.1 pr.2) ps from rfl]
      rw [ih _ j hj.2]
      exact List.getD_set_ne _ _ _ _ (fun h => hj.1 h.symm)

theorem sum_writeAll : ∀ (ps : List (ℕ × ℚ)) (l : List ℚ),
    (ps.map Prod.fst).Nodup → (∀ pr ∈ ps, pr.1 < l.length) →
    (∀ pr ∈ ps, l.getD pr.1 0 = 0) →
    (writeAll l ps).sum = l.sum + (ps.map Prod.snd).sum := by
  intro ps
  induction ps with
  | nil => intro l _ _ _; simp [writeAll]
  | cons pr ps ih =>
      intro l hnd hlt hz
      simp only [List.map_cons, List.nodup_cons] at hnd
      unfold writeAll
      simp only [List.foldl_cons]
      rw [show List.foldl (fun acc p => acc.set p.1 p.2) (l.set pr.1 pr.2) ps =
        writeAll (l.set pr.1 pr.2) ps from rfl]
      rw [ih (l.set pr.1 pr.2) hnd.2 ?_ ?_]
      · rw [List.sum_set_eq l pr.1 pr.2 (hlt pr (by simp))]
        rw [hz pr (by simp)]
        simp only [List.map_cons, List.sum_cons]
        ring
      · intro q hq
        rw [List.length_set]
        exact hlt q (by simp [hq])
      · intro q hq
        rw [List.getD_set_ne _ _ _ _
          (fun h => hnd.1 (by rw [h]; exact List.mem_map_of_mem Prod.fst hq))]
        exact hz q (by simp [hq])

theorem getD_replicate_zero : ∀ (n j : ℕ), (List.replicate n (0:ℚ)).getD j 0 = 0 := by
  intro n
  induction n with
  | zero => intro j; simp
  | succ n ih =>
      intro j
      cases j with
      | zero => simp [List.replicate]
      | succ j => simp only [List.replicate, List.getD_cons_succ]; exact ih j

/-! ### C2: battery SMART and UNCONTROLLED deliver exactly the needed
charge -/

theorem insertIdx_perm (prices : List ℚ) (i : ℕ) :
    ∀ l : List ℕ, (insertIdx prices i l).Perm (i :: l) := by
  intro l
  induction l with
  | nil => simp [insertIdx]
  | cons j js ih =>
      unfold insertIdx
      by_cases h : prices.getD i 0 ≤ prices.getD j 0
      · rw [if_pos h]
      · rw [if_neg h]
        exact (ih.cons j).trans (List.Perm.swap i j js)

theorem argsort_perm (prices : List ℚ) :
    ∀ idxs : List ℕ, (argsort prices idxs).Perm idxs := by
  intro idxs
  induction idxs with
  | nil => simp [argsort]
  | cons x l ih =>
      unfold argsort
      simp only [List.foldr_cons]
      exact (insertIdx_perm prices x _).trans (ih.cons x)

theorem sum_map_const_q (l : List ℕ) (c : ℚ) :
    (l.map (fun _ => c)).sum = l.length * c := by
  induction l with
  | nil => simp
  | cons x l ih => simp [ih]; ring

theorem writeAll_length : ∀ (ps : List (ℕ × ℚ)) (l : List ℚ),
    (writeAll l ps).length = l.length := by
  intro ps
  induction ps with
  | nil => intro l; rfl
  | cons pr ps ih =>
      intro l
      unfold writeAll
      simp only [List.foldl_cons]
      rw [show List.foldl (fun acc p => acc.set p.1 p.2) (l.set pr.1 pr.2) ps =
        writeAll (l.set pr.1 pr.2) ps from rfl]
      rw [ih]
      exact List.length_set l pr.1 pr.2

theorem fillSlice_replicate_zero (n a b : ℕ) (v : ℚ) (hab : a ≤ b) (hbn : b ≤ n) :
    fillSlice (List.replicate n 0) a b v =
      List.replicate a 0 ++ List.replicate (b - a) v ++ List.replicate (n - b) 0 := by
  unfold fillSlice
  simp only [List.length_replicate]
  rw [Nat.min_eq_left (hab.trans hbn), Nat.min_eq_left hbn, Nat.max_eq_right hab]
  rw [List.take_replicate, List.drop_replicate, Nat.min_eq_left (hab.trans hbn)]

/-- C2.  When `interval length > slotsNeeded > 0`, one day of the
battery SMART and UNCONTROLLED power profiles each sums to exactly
`60 * chargeNeeded`, i.e. both deliver exactly `chargeNeeded` kWh
(in particular within the 1e-9 kWh tolerance). -/
theorem battery_delivers_charge (prices : List ℚ)
    (connectionSlot disconnectionSlot : ℕ) (chargeNeeded chargingPower : ℚ)
    (hdisc : disconnectionSlot < 2880)
    (hpos : 0 < ⌈chargeNeeded / (chargingPower / 60)⌉)
    (hlt : ⌈chargeNeeded / (chargingPower / 60)⌉ <
      (disconnectionSlot : ℤ) - connectionSlot) :
    ((Battery.smartPowerProfile prices connectionSlot disconnectionSlot
        chargeNeeded chargingPower).sum / 60 = chargeNeeded ∧
      |(Battery.smartPowerProfile prices connectionSlot disconnectionSlot
        chargeNeeded chargingPower).sum / 60 - chargeNeeded| ≤ 1 / 1000000000) ∧
    ((Battery.uncontrolledPowerProfile connectionSlot disconnectionSlot
        chargeNeeded chargingPower).sum / 60 = chargeNeeded ∧
      |(Battery.uncontrolledPowerProfile connectionSlot disconnectionSlot
        chargeNeeded chargingPower).sum / 60 - chargeNeeded| ≤ 1 / 1000000000) := by
  set S : ℤ := ⌈chargeNeeded / (chargingPower / 60)⌉ with hS
  have hS1 : 1 ≤ S.toNat := by omega
  have hconn : (connectionSlot : ℤ) + S < disconnectionSlot := by omega
  have hcast : ((S.toNat : ℕ) : ℚ) = ((S : ℤ) : ℚ) := by
    exact_mod_cast congrArg (fun z : ℤ => (z : ℚ)) (Int.toNat_of_nonneg (by omega))
  have hsmart : (Battery.smartPowerProfile prices connectionSlot disconnectionSlot
      chargeNeeded chargingPower).sum = 60 * chargeNeeded := by
    simp only [Battery.smartPowerProfile]
    rw [← hS]
    rw [if_pos hpos, if_neg (by omega)]
    set w := List.range' connectionSlot (disconnectionSlot - connectionSlot) with hw
    set cs := (argsort prices w).take S.toNat with hcs
    have hwnd : w.Nodup := by
      rw [hw]
      apply List.nodup_range'
      norm_num
    have hwlen : w.length = disconnectionSlot - connectionSlot := by
      rw [hw, List.length_range']
    have hperm := argsort_perm prices w
    have hcslen : cs.length = S.toNat := by
      rw [hcs, List.length_take, hperm.length_eq, hwlen]
      omega
    have hcsnd : cs.Nodup := (hperm.nodup_iff.2 hwnd).sublist (List.take_sublist _ _)
    have hcsmem : ∀ x ∈ cs, x < 2880 := by
      intro x hx
      have hx2 : x ∈ w := hperm.mem_iff.1 ((List.take_sublist _ _).subset hx)
      rw [hw] at hx2
      have := List.mem_range'_1.1 hx2
      omega
    have hne : cs ≠ [] := by
      intro h
      rw [h] at hcslen
      simp at hcslen
      omega
    have hsplit : cs.dropLast ++ [cs.getLast hne] = cs :=
      List.dropLast_append_getLast hne
    have hlastD : cs.getLastD 0 = cs.getLast hne := by
      rw [List.getLastD_eq_getLast?, List.getLast?_eq_getLast cs hne]
      rfl
    have hlast_not : cs.getLast hne ∉ cs.dropLast := by
      intro hmem
      have hnd2 := hsplit ▸ hcsnd
      rw [List.nodup_append] at hnd2
      exact hnd2.2.2 hmem (by simp)
    have hdl_len : cs.dropLast.length = S.toNat - 1 := by
      rw [List.length_dropLast, hcslen]
    set ps := cs.dropLast.map (fun i => (i, chargingPower)) with hps
    have hps_fst : ps.map Prod.fst = cs.dropLast := by
      rw [hps, List.map_map]
      have hcomp : (Prod.fst ∘ fun i : ℕ => (i, chargingPower)) = fun i : ℕ => i := rfl
      rw [hcomp, List.map_id']
    have hlen_wa : (writeAll (List.replicate 2880 0) ps).length = 2880 := by
      rw [writeAll_length, List.length_replicate]
    have hsum_wa : (writeAll (List.replicate 2880 0) ps).sum =
        ((S.toNat : ℚ) - 1) * chargingPower := by
      rw [sum_writeAll ps _ ?_ ?_ ?_]
      · rw [List.sum_replicate]
        simp only [smul_zero, zero_add]
        rw [hps, List.map_map]
        have hcomp : (Prod.snd ∘ fun i : ℕ => (i, chargingPower)) =
            fun _ : ℕ => chargingPower := rfl
        rw [hcomp, sum_map_const_q, hdl_len, Nat.cast_sub hS1, Nat.cast_one]
      · rw [hps_fst]
        exact hcsnd.sublist (List.dropLast_sublist cs)
      · intro pr hpr
        rcases List.mem_map.1 hpr with ⟨i, hi, rfl⟩
        simp only [List.length_replicate]
        exact hcsmem i ((List.dropLast_sublist cs).subset hi)
      · intro pr hpr
        exact getD_replicate_zero _ _
    have hgetD : (writeAll (List.replicate 2880 0) ps).getD (cs.getLastD 0) 0 = 0 := by
      rw [writeAll_getD_not_mem ps _ _ (by rw [hps_fst, hlastD]; exact hlast_not)]
      exact getD_replicate_zero _ _
    rw [List.sum_set_eq _ _ _ (by rw [hlen_wa, hlastD]; exact hcsmem _ (List.getLast_mem hne))]
    rw [hsum_wa, hgetD, hcast]
    ring
  have huncontrolled : (Battery.uncontrolledPowerProfile connectionSlot
      disconnectionSlot chargeNeeded chargingPower).sum = 60 * chargeNeeded := by
    simp only [Battery.uncontrolledPowerProfile]
    rw [← hS]
    rw [if_pos hpos, if_neg (by omega)]
    have hb1 : connectionSlot ≤ connectionSlot + S.toNat - 1 := by omega
    have hb2 : connectionSlot + S.toNat - 1 ≤ 2880 := by omega
    rw [fillSlice_replicate_zero 2880 connectionSlot (connectionSlot + S.toNat - 1)
      chargingPower hb1 hb2]
    have hchunk : connectionSlot + S.toNat - 1 - connectionSlot = S.toNat - 1 := by omega
    rw [hchunk]
    have hlen : (List.replicate connectionSlot (0:ℚ) ++
        List.replicate (S.toNat - 1) chargingPower ++
        List.replicate (2880 - (connectionSlot + S.toNat - 1)) 0).length = 2880 := by
      simp only [List.length_append, List.length_replicate]
      omega
    have hgetD : (List.replicate connectionSlot (0:ℚ) ++
        List.replicate (S.toNat - 1) chargingPower ++
        List.replicate (2880 - (connectionSlot + S.toNat - 1)) 0).getD
          (connectionSlot + S.toNat) 0 = 0 := by
      rw [List.getD_append_right _ _ _ _ (by
        simp only [List.length_append, List.length_replicate]
        omega)]
      exact getD_replicate_zero _ _
    rw [List.sum_set_eq _ _ _ (by rw [hlen]; omega)]
    rw [hgetD]
    simp only [List.sum_append, List.sum_replicate, smul_zero, zero_add, add_zero]
    rw [nsmul_eq_mul, Nat.cast_sub hS1, Nat.cast_one, hcast]
    ring
  refine ⟨⟨?_, ?_⟩, ?_, ?_⟩
  · rw [hsmart]; field_simp
  · rw [hsmart]
    have h1 : (60 : ℚ) * chargeNeeded / 60 = chargeNeeded := by field_simp
    rw [h1, sub_self, abs_zero]
    norm_num
  · rw [huncontrolled]; field_simp
  · rw [huncontrolled]
    have h1 : (60 : ℚ) * chargeNeeded / 60 = chargeNeeded := by field_simp
    rw [h1, sub_self, abs_zero]
    norm_num

theorem battery_delivers_charge_witness :
    (2 : ℕ) < 2880 ∧ (0 : ℤ) < ⌈(1 : ℚ) / (60 / 60)⌉ ∧
      ⌈(1 : ℚ) / (60 / 60)⌉ < (2 : ℤ) - (0 : ℕ) ∧
      ((((Battery.smartPowerProfile [] 0 2 1 60).sum / 60 = 1 ∧
        |(Battery.smartPowerProfile [] 0 2 1 60).sum / 60 - 1| ≤ 1 / 1000000000) ∧
       ((Battery.uncontrolledPowerProfile 0 2 1 60).sum / 60 = 1 ∧
        |(Battery.uncontrolledPowerProfile 0 2 1 60).sum / 60 - 1| ≤ 1 / 1000000000))) :=
  ⟨by norm_num, by norm_num, by norm_num,
    battery_delivers_charge [] 0 2 1 60 (by norm_num) (by norm_num) (by norm_num)⟩

theorem Machine.pickStep_spec (prices usage : List ℚ) (b : ℕ × Option ℚ)
    (s : ℕ) :
    ∃ p, (Machine.pickStep prices usage b s).2 = some p ∧
      p ≤ Machine.runCost prices usage s ∧ ∀ q, b.2 = some q → p ≤ q := by
  unfold Machine.pickStep
  cases hb : b.2 with
  | none =>
      refine ⟨Machine.runCost prices usage s, ?_, le_refl _, ?_⟩
      · simp [hb]
      · intro q hq
        exact absurd hq (by simp)
  | some bp =>
      by_cases hlt : Machine.runCost prices usage s < bp
      · refine ⟨Machine.runCost prices usage s, ?_, le_refl _, ?_⟩
        · simp [hb, hlt]
        · intro q hq
          injection hq with h
          subst h
          exact hlt.le
      · refine ⟨bp, ?_, not_lt.1 hlt, ?_⟩
        · simp [hb, hlt]
        · intro q hq
          injection hq with h
          subst h
          exact le_refl _

theorem Machine.pickStep_inv (prices usage : List ℚ) (b : ℕ × Option ℚ)
    (s : ℕ)
    (hP : ∀ p, b.2 = some p → p = Machine.runCost prices usage b.1) :
    ∀ p, (Machine.pickStep prices usage b s).2 = some p →
      p = Machine.runCost prices usage (Machine.pickStep prices usage b s).1 := by
  unfold Machine.pickStep
  cases hb : b.2 with
  | none =>
      intro p hp
      simp only [hb] at hp ⊢
      injection hp with h
      simp [← h]
  | some bp =>
      by_cases hlt : Machine.runCost prices usage s < bp
      · intro p hp
        simp only [hb, hlt, if_true] at hp ⊢
        injection hp with h
        simp [← h]
      · intro p hp
        simp only [hb, hlt, if_false] at hp ⊢
        exact hP p (hb.trans hp)

theorem Machine.foldl_pick_inv (prices usage : List ℚ) (l : List ℕ) :
    ∀ (b : ℕ × Option ℚ),
      (∀ p, b.2 = some p → p = Machine.runCost prices usage b.1) →
      ∀ p, (l.foldl (Machine.pickStep prices usage) b).2 = some p →
        p = Machine.runCost prices usage
          (l.foldl (Machine.pickStep prices usage) b).1 := by
  induction l with
  | nil => intro b hP; exact hP
  | cons s l ih =>
      intro b hP
      simp only [List.foldl_cons]
      exact ih _ (Machine.pickStep_inv prices usage b s hP)

theorem Machine.foldl_pick_mono (prices usage : List ℚ) (l : List ℕ) :
    ∀ (b : ℕ × Option ℚ) (q : ℚ), b.2 = some q →
      ∃ p, (l.foldl (Machine.pickStep prices usage) b).2 = some p ∧ p ≤ q := by
  induction l with
  | nil => intro b q hq; exact ⟨q, hq, le_refl q⟩
  | cons s l ih =>
      intro b q hq
      simp only [List.foldl_cons]
      obtain ⟨p1, hp1, _, hmin⟩ := Machine.pickStep_spec prices usage b s
      obtain ⟨p, hp, hple⟩ := ih _ p1 hp1
      exact ⟨p, hp, hple.trans (hmin q hq)⟩

theorem Machine.foldl_pick_min (prices usage : List ℚ) (l : List ℕ) :
    ∀ (b : ℕ × Option ℚ) (s : ℕ), s ∈ l →
      ∃ p, (l.foldl (Machine.pickStep prices usage) b).2 = some p ∧
        p ≤ Machine.runCost prices usage s := by
  induction l with
  | nil => intro b s hs; simp at hs
  | cons a l ih =>
      intro b s hs
      simp only [List.foldl_cons]
      rcases List.mem_cons.1 hs with rfl | hs
      · obtain ⟨p1, hp1, hcost, _⟩ := Machine.pickStep_spec prices usage b s
        obtain ⟨p, hp, hple⟩ := Machine.foldl_pick_mono prices usage l _ p1 hp1
        exact ⟨p, hp, hple.trans hcost⟩
      · exact ih _ s hs

/-- C5.  For the same usage profile, price profile and availability
window, the slot chosen by `Machine.calculateSmartDemand` never costs
more than the slot `startAfterSlot` used by
`Machine.calculateUncontrolledDemand`. -/
theorem machine_smart_cost_le (prices usage : List ℚ)
    (startAfterSlot finishBySlot : ℕ) :
    Machine.runCost prices usage
        (Machine.cheapestSlot prices usage startAfterSlot finishBySlot) ≤
      Machine.runCost prices usage startAfterSlot := by
  unfold Machine.cheapestSlot
  dsimp only
  by_cases hif : startAfterSlot + usage.length < finishBySlot
  · simp only [hif, if_true]
    have hmem : startAfterSlot ∈
        List.range' startAfterSlot (finishBySlot - usage.length - startAfterSlot) := by
      have : 0 < finishBySlot - usage.length - startAfterSlot := by omega
      rcases Nat.exists_eq_add_of_lt this with ⟨k, hk⟩
      rw [hk]
      simp [List.range'_succ]
    obtain ⟨p, hp, hple⟩ := Machine.foldl_pick_min prices usage _
      (startAfterSlot, none) startAfterSlot hmem
    have hval := Machine.foldl_pick_inv prices usage _
      (startAfterSlot, (none : Option ℚ)) (by intro p hp2; simp at hp2) p hp
    rw [← hval]
    exact hple
  · simp [hif]

/-! ### C6: cheap-minute realization hits the quota -/

theorem Connection.cheapLoop_sum (L Q : ℕ) : ∀ (centers : List ℕ)
    (mask mask2 : List ℚ),
    Connection.cheapLoop L Q centers mask = some mask2 → (Q : ℚ) ≤ mask2.sum := by
  intro centers
  induction centers with
  | nil =>
      intro mask mask2 h
      unfold Connection.cheapLoop at h
      by_cases hs : mask.sum < (Q : ℚ)
      · simp [hs] at h
      · simp only [hs, if_false] at h
        injection h with h
        exact h ▸ not_lt.1 hs
  | cons c rest ih =>
      intro mask mask2 h
      unfold Connection.cheapLoop at h
      by_cases hs : mask.sum < (Q : ℚ)
      · simp only [hs, if_true] at h
        exact ih _ mask2 h
      · simp only [hs, if_false] at h
        injection h with h
        exact h ▸ not_lt.1 hs

/-- C6.  Cheap-minute realization for a day with quota `Q > 0`:
with `cheapIntervalLength = 1` the generated mask has exactly `Q` ones
(the `Q` sampled positions are distinct); with `cheapIntervalLength > 1`
any run of the interval-adding loop that terminates produces a mask
whose sum is at least `Q`. -/
theorem connection_cheap_mask (Q : ℕ) (positions centers : List ℕ)
    (mask2 : List ℚ) (hQ : 0 < Q) :
    (positions.Nodup → positions.length = Q → (∀ p ∈ positions, p < 1440) →
      (Connection.cheaperIntervalsL1 1 positions).sum = Q) ∧
    (∀ L : ℕ, Connection.cheapLoop L Q centers
        (List.replicate (1440 + 2 * L) 0) = some mask2 → (Q : ℚ) ≤ mask2.sum) := by
  constructor
  · intro hnd hlen hbound
    unfold Connection.cheaperIntervalsL1
    rw [sum_writeAll _ _ ?_ ?_ ?_]
    · simp only [List.sum_replicate, smul_zero, zero_add]
      rw [List.map_map]
      have hx : List.map (Prod.snd ∘ fun p : ℕ => (p, (1:ℚ))) positions =
          List.map (fun _ : ℕ => (1:ℚ)) positions := rfl
      rw [hx]
      rw [show (fun _ : ℕ => (1:ℚ)) = Function.const ℕ (1:ℚ) from rfl]
      rw [List.map_const]
      rw [List.sum_replicate]
      rw [hlen]
      simp [nsmul_eq_mul]
    · rw [List.map_map]
      have hx : List.map (Prod.fst ∘ fun p : ℕ => (p, (1:ℚ))) positions =
          List.map (fun p : ℕ => p) positions := rfl
      rw [hx, List.map_id']
      exact hnd
    · intro pr hpr
      rcases List.mem_map.1 hpr with ⟨p, hp, rfl⟩
      simp only [List.length_replicate]
      have := hbound p hp
      omega
    · intro pr hpr
      rcases List.mem_map.1 hpr with ⟨p, hp, rfl⟩
      exact getD_replicate_zero _ _
  · intro L h
    exact Connection.cheapLoop_sum L Q centers _ mask2 h

theorem connection_cheap_mask_witness :
    (0 : ℕ) < 2 ∧
      (Connection.cheaperIntervalsL1 1 [3, 5]).sum = 2 ∧
      ((2 : ℕ) : ℚ) ≤ (Connection.addCheapInterval 4
        (List.replicate (1440 + 2 * 4) 0) 10).sum := by
  have hsum0 : (List.replicate (1440 + 2 * 4) (0:ℚ)).sum = 0 := by
    rw [List.sum_replicate, smul_zero]
  have hval : Connection.addCheapInterval 4 (List.replicate (1440 + 2 * 4) 0) 10
      = List.replicate 12 0 ++ List.replicate 4 1 ++ List.replicate 1432 0 := by
    unfold Connection.addCheapInterval fillSlice
    dsimp only
    rw [List.length_replicate, List.take_replicate, List.drop_replicate]
    norm_num [min_def, max_def]
  have hmask : (Connection.addCheapInterval 4
      (List.replicate (1440 + 2 * 4) 0) 10).sum = 4 := by
    rw [hval, List.sum_append, List.sum_append, List.sum_replicate, List.sum_replicate,
      List.sum_replicate]
    norm_num
  have h4 : Connection.cheapLoop 4 2 [10] (List.replicate (1440 + 2 * 4) 0) =
      some (Connection.addCheapInterval 4 (List.replicate (1440 + 2 * 4) 0) 10) := by
    unfold Connection.cheapLoop
    rw [hsum0]
    norm_num
    unfold Connection.cheapLoop
    rw [hmask]
    norm_num
  refine ⟨by norm_num, ?_, ?_⟩
  · have := (connection_cheap_mask 2 [3, 5] [10]
      (Connection.addCheapInterval 4 (List.replicate (1440 + 2 * 4) 0) 10)
      (by norm_num)).1 (by decide) (by decide) (by decide)
    exact_mod_cast this
  · exact (connection_cheap_mask 2 [3, 5] [10]
      (Connection.addCheapInterval 4 (List.replicate (1440 + 2 * 4) 0) 10)
      (by norm_num)).2 4 h4

/-! ### C8: negative CLI integers are clamped, not rejected -/

/-- C8 counterexample.  A negative `simulationLength` does **not**
make the program exit with code 1: `run.py` clamps it with
`max(0, int(...))` and starts the simulation. -/
theorem parseCLI_negative_not_fatal :
    parseCLI 5 (some 0) (some (-3)) (some 2) = some (0, 2) ∧
      parseCLI 5 (some 0) (some (-3)) (some 2) ≠ none := by
  constructor
  · rfl
  · intro h
    simp [parseCLI] at h

/-- C8 (amended).  A `simulationLength` or `houseCount` argument that
parses as a negative integer is clamped to zero and the simulation
proceeds; exit code 1 happens only for a wrong argument count or
arguments that fail to parse. -/
theorem parseCLI_negative_clamped (d l c : ℤ) (hl : l < 0) (hc : c < 0) :
    parseCLI 5 (some d) (some l) (some c) = some (0, 0) := by
  unfold parseCLI
  simp only [if_neg (by norm_num : ¬(5 : ℕ) ≠ 5)]
  have h1 : max 0 l = 0 := max_eq_left hl.le
  have h2 : max 0 c = 0 := max_eq_left hc.le
  rw [h1, h2]

theorem parseCLI_negative_clamped_witness :
    (-3 : ℤ) < 0 ∧ (-7 : ℤ) < 0 ∧
      parseCLI 5 (some 0) (some (-3)) (some (-7)) = some (0, 0) :=
  ⟨by norm_num, by norm_num, parseCLI_negative_clamped 0 (-3) (-7)
    (by norm_num) (by norm_num)⟩

/-! ### C3: Profile.get windowing -/

/-- Characterization of `Profile.get` for reads starting inside (or at
the end of) the stored range: entry `i` of the result is the stored
value at minute `t1 + i` when that minute is before the end of storage,
and `0` afterwards. -/
theorem Profile.get_char (p : Profile) (t0 t1 t3 : ℤ)
    (h0 : p.startingDT = some t0) (h01 : t0 ≤ t1) (h13 : t1 ≤ t3)
    (h1n : t1 ≤ t0 + p.values.length) :
    p.get t1 t3 = some ((List.range (t3 - t1).toNat).map (fun i : ℕ =>
      if (t1 + (i : ℤ)) < t0 + p.values.length then
        p.values.getD (t1 + (i : ℤ) - t0).toNat 0
      else 0)) := by
  unfold Profile.get
  rw [h0]
  simp only [Profile.minutesBetween, pySlice, pyIdx]
  split_ifs with h1 h2 h3 h4 h5
  all_goals try (exfalso; omega)
  all_goals try (exfalso; simp only [List.length_take, List.length_drop] at *; omega)
  set n := p.values.length with hn
  have eA : ((t1 - t0) ⊓ (n:ℤ)).toNat = (t1 - t0).toNat := by omega
  have eB : ((n:ℤ) ⊓ (t3 - t0) ⊓ (n:ℤ)).toNat = ((n:ℤ) ⊓ (t3 - t0)).toNat := by omega
  have eC : (((n:ℤ) ⊓ (t3 - t0) - (t1 - t0)) ⊓ ((t3 - t1).toNat:ℤ)).toNat =
      ((n:ℤ) ⊓ (t3 - t0)).toNat - (t1 - t0).toNat := by omega
  rw [eA, eB, eC]
  set s := (t1 - t0).toNat with hs
  set b := ((n:ℤ) ⊓ (t3 - t0)).toNat with hb
  set len := (t3 - t1).toNat with hlen
  have hsn : s ≤ n := by omega
  have hbn : b ≤ n := by omega
  have hbs : b - s ≤ len := by omega
  congr 1
  apply List.ext_getElem
  · simp only [List.length_append, List.length_take, List.length_drop,
      List.length_replicate, List.length_map, List.length_range]
    omega
  · intro i hi hi2
    simp only [List.length_map, List.length_range] at hi2
    simp only [List.length_append, List.length_take, List.length_drop,
      List.length_replicate] at hi
    simp only [List.getElem_map, List.getElem_range]
    by_cases hcase : i < b - s
    · rw [List.getElem_append_left (by
        simp only [List.length_take, List.length_drop]
        omega)]
      rw [List.getElem_take, List.getElem_drop]
      have hcond : (t1 + (i : ℤ)) < t0 + n := by omega
      rw [if_pos hcond]
      have hidx : (t1 + (i:ℤ) - t0).toNat = s + i := by omega
      rw [hidx]
      rw [List.getD_eq_getElem p.values 0 (by omega)]
    · rw [List.getElem_append_right (by
        simp only [List.length_take, List.length_drop]
        omega)]
      rw [List.getElem_replicate]
      have hcond : ¬((t1 + (i:ℤ)) < t0 + n) := by omega
      rw [if_neg hcond]

/-- C3 counterexample.  A read window lying strictly before the anchor
wraps around (Python negative indexing) and returns stored values, not
zeros: minute 97 lies before the anchor 100, yet `get(96, 99)` returns
`[2, 3, 4]`, whose entry for minute 97 is `3`, not `0`. -/
theorem profile_get_before_anchor_not_zero :
    (Profile.get ⟨some 100, [1, 2, 3, 4, 5]⟩ 96 99).map (fun v => v.getD 1 0) =
      some 3 ∧ (3 : ℚ) ≠ 0 := by
  constructor
  · rfl
  · norm_num

/-- C3 (amended).  For an anchored profile and minute timestamps
`t0 ≤ t1 ≤ t2 ≤ t3` with `t2` at most the end of the stored range,
`get(t1,t3)` is the concatenation of `get(t1,t2)` and `get(t2,t3)`, has
length `minutes(t3-t1)`, and is zero at every minute at or past the end
of the stored range.  (Reads whose window starts before `t0`, or starts
past the end of storage with a long enough window, raise instead of
zero-padding — see the counterexample.) -/
theorem profile_get_concat (p : Profile) (t0 t1 t2 t3 : ℤ)
    (h0 : p.startingDT = some t0) (h01 : t0 ≤ t1) (h12 : t1 ≤ t2)
    (h23 : t2 ≤ t3) (h2n : t2 ≤ t0 + p.values.length) :
    ∃ v1 v2, p.get t1 t2 = some v1 ∧ p.get t2 t3 = some v2 ∧
      p.get t1 t3 = some (v1 ++ v2) ∧
      (v1 ++ v2).length = (t3 - t1).toNat ∧
      ∀ i : ℕ, i < (t3 - t1).toNat → (t0 + p.values.length : ℤ) ≤ t1 + i →
        (v1 ++ v2).getD i 0 = 0 := by
  have h1n : t1 ≤ t0 + p.values.length := le_trans h12 h2n
  have h13 : t1 ≤ t3 := le_trans h12 h23
  have e12 := Profile.get_char p t0 t1 t2 h0 h01 h12 h1n
  have e23 := Profile.get_char p t0 t2 t3 h0 (le_trans h01 h12) h23 h2n
  have e13 := Profile.get_char p t0 t1 t3 h0 h01 h13 h1n
  set n := p.values.length with hn
  refine ⟨_, _, e12, e23, ?_, ?_, ?_⟩
  · rw [e13]
    congr 1
    have hsplit : (t3 - t1).toNat = (t2 - t1).toNat + (t3 - t2).toNat := by omega
    rw [hsplit, List.range_add, List.map_append, List.map_map]
    congr 1
    apply List.ext_getElem
    · simp
    · intro i hi hi2
      simp only [List.getElem_map, List.getElem_range, Function.comp_apply]
      have harg : t1 + (((t2 - t1).toNat + i : ℕ) : ℤ) = t2 + (i : ℤ) := by
        push_cast
        omega
      rw [harg]
  · simp only [List.length_append, List.length_map, List.length_range]
    omega
  · intro i hi hzero
    have hlen : (((List.range (t2 - t1).toNat).map (fun j : ℕ =>
        if (t1 + (j : ℤ)) < t0 + n then p.values.getD (t1 + (j:ℤ) - t0).toNat 0
        else 0)) ++ ((List.range (t3 - t2).toNat).map (fun j : ℕ =>
        if (t2 + (j : ℤ)) < t0 + n then p.values.getD (t2 + (j:ℤ) - t0).toNat 0
        else 0))).length = (t3 - t1).toNat := by
      simp only [List.length_append, List.length_map, List.length_range]
      omega
    rw [List.getD_eq_getElem _ 0 (by rw [hlen]; exact hi)]
    by_cases hcase : i < (t2 - t1).toNat
    · rw [List.getElem_append_left (by simpa using hcase)]
      simp only [List.getElem_map, List.getElem_range]
      rw [if_neg (by omega)]
    · rw [List.getElem_append_right (by simpa using hcase)]
      simp only [List.length_map, List.length_range, List.getElem_map,
        List.getElem_range]
      rw [if_neg (by
        have : (t2 - t1).toNat ≤ i := by omega
        omega)]

theorem profile_get_concat_witness :
    Profile.get ⟨some 0, [5, 6]⟩ 0 1 = some [5] ∧
      Profile.get ⟨some 0, [5, 6]⟩ 1 3 = some [6, 0] ∧
      Profile.get ⟨some 0, [5, 6]⟩ 0 3 = some ([5] ++ [6, 0]) ∧
      (([5] ++ [6, 0]) : List ℚ).length = ((3 : ℤ) - 0).toNat ∧
      ∀ i : ℕ, i < ((3 : ℤ) - 0).toNat →
        ((0 : ℤ) + (([5, 6] : List ℚ).length : ℤ) ≤ 0 + i) →
        (([5] ++ [6, 0]) : List ℚ).getD i 0 = 0 := by
  obtain ⟨v1, v2, e1, e2, e3, hlen, hz⟩ :=
    profile_get_concat ⟨some 0, [5, 6]⟩ 0 0 1 3 rfl (by norm_num) (by norm_num)
      (by norm_num) (by norm_num)
  have hv1 : v1 = [5] := by
    rw [show Profile.get ⟨some 0, [5, 6]⟩ 0 1 = some [5] from rfl] at e1
    injection e1 with h
    exact h.symm
  have hv2 : v2 = [6, 0] := by
    rw [show Profile.get ⟨some 0, [5, 6]⟩ 1 3 = some [6, 0] from rfl] at e2
    injection e2 with h
    exact h.symm
  refine ⟨by rfl, by rfl, ?_, by rfl, ?_⟩
  · rw [← hv1, ← hv2]
    exact e3
  · intro i hi hz2
    have := hz i hi (by simpa using hz2)
    rw [hv1, hv2] at this
    exact this

/-! ### C4: effect of the mutating Profile operations -/

theorem resized_spec (l : List ℚ) (newSize : ℤ) (h : 0 ≤ newSize) :
    ∃ vs, (if newSize > (l.length : ℤ) then npResize l newSize else some l) =
        some vs ∧ vs.length = max l.length newSize.toNat := by
  by_cases hgt : newSize > (l.length : ℤ)
  · rw [if_pos hgt]
    unfold npResize
    rw [if_neg (by omega)]
    refine ⟨_, rfl, ?_⟩
    simp only [List.length_append, List.length_take, List.length_replicate]
    omega
  · rw [if_neg hgt]
    exact ⟨l, rfl, by omega⟩

theorem pyIdx_nonneg (n : ℕ) (i : ℤ) (hi : 0 ≤ i) (hin : i ≤ n) :
    pyIdx n i = i.toNat := by
  unfold pyIdx
  rw [if_neg (by omega)]
  omega

theorem pySliceAssign_full (l : List ℚ) (a : ℤ) (vals : List ℚ) (ha : 0 ≤ a)
    (hle : a + vals.length ≤ l.length) :
    ∃ r, pySliceAssign l a (a + vals.length) vals = some r ∧
      r.length = l.length := by
  unfold pySliceAssign
  rw [pyIdx_nonneg _ _ ha (by omega), pyIdx_nonneg _ _ (by omega) (by omega)]
  rw [if_pos (by omega)]
  refine ⟨_, rfl, ?_⟩
  simp only [List.length_append, List.length_take, List.length_drop]
  omega

theorem pySliceAddAssign_full (l : List ℚ) (a : ℤ) (vals : List ℚ) (ha : 0 ≤ a)
    (hle : a + vals.length ≤ l.length) :
    ∃ r, pySliceAddAssign l a (a + vals.length) vals = some r ∧
      r.length = l.length := by
  unfold pySliceAddAssign
  rw [pyIdx_nonneg _ _ ha (by omega), pyIdx_nonneg _ _ (by omega) (by omega)]
  rw [if_pos (by omega)]
  refine ⟨_, rfl, ?_⟩
  simp only [List.length_append, List.length_take, List.length_drop,
    List.length_zipWith]
  omega

theorem profile_set_spec (p : Profile) (t0 fromDT : ℤ) (vals : List ℚ)
    (h0 : p.startingDT = some t0) (hge : t0 ≤ fromDT) :
    ∃ q, p.set fromDT vals = some q ∧ q.startingDT = some t0 ∧
      q.values.length = max p.values.length ((fromDT - t0).toNat + vals.length) := by
  unfold Profile.set
  rw [h0]
  simp only [Profile.minutesBetween]
  obtain ⟨vs, hvs, hvslen⟩ := resized_spec p.values (fromDT - t0 + vals.length)
    (by omega)
  rw [hvs]
  dsimp only
  obtain ⟨r, hr2, hrlen⟩ := pySliceAssign_full vs (fromDT - t0) vals (by omega)
    (by omega)
  rw [hr2]
  refine ⟨_, rfl, rfl, ?_⟩
  show r.length = _
  omega

theorem profile_add_spec (p : Profile) (t0 fromDT : ℤ) (vals : List ℚ)
    (h0 : p.startingDT = some t0) (hge : t0 ≤ fromDT) :
    ∃ q, p.add fromDT vals = some q ∧ q.startingDT = some t0 ∧
      q.values.length = max p.values.length ((fromDT - t0).toNat + vals.length) := by
  unfold Profile.add
  rw [h0]
  simp only [Option.getD_some, Profile.minutesBetween]
  obtain ⟨vs, hvs, hvslen⟩ := resized_spec p.values (fromDT - t0 + vals.length)
    (by omega)
  rw [hvs]
  dsimp only
  obtain ⟨r, hr2, hrlen⟩ := pySliceAddAssign_full vs (fromDT - t0) vals (by omega)
    (by omega)
  rw [hr2]
  refine ⟨_, rfl, rfl, ?_⟩
  show r.length = _
  omega

theorem profile_transition_spec (p : Profile) (t0 fromDT : ℤ) (vals : List ℚ)
    (ratioFn : ℕ → List ℚ) (hr : ∀ n, (ratioFn n).length = n)
    (h0 : p.startingDT = some t0) (hge : t0 ≤ fromDT)
    (hov : (p.values.length : ℤ) - (fromDT - t0) < 0 ∨
      (0 < (p.values.length : ℤ) - (fromDT - t0) ∧
        ((p.values.length : ℤ) - (fromDT - t0)) ≤ vals.length)) :
    ∃ q, Profile.transition ratioFn p fromDT vals = some q ∧
      q.startingDT = some t0 ∧
      q.values.length = max p.values.length ((fromDT - t0).toNat + vals.length) := by
  unfold Profile.transition
  rw [h0]
  simp only [Profile.minutesBetween]
  obtain ⟨vs, hvs, hvslen⟩ := resized_spec p.values (fromDT - t0 + vals.length)
    (by omega)
  rw [hvs]
  dsimp only
  rcases hov with hneg | ⟨hpos, hle⟩
  · rw [if_neg (by omega), if_pos (by omega)]
    have hb : (vs.length : ℤ) = (fromDT - t0) + vals.length := by omega
    rw [hb]
    obtain ⟨r, hr2, hrlen⟩ := pySliceAssign_full vs (fromDT - t0) vals (by omega)
      (by omega)
    rw [hr2]
    refine ⟨_, rfl, rfl, ?_⟩
    show r.length = _
    omega
  · rw [if_neg (by omega), if_neg (by omega), if_neg (by omega)]
    have hb : (vs.length : ℤ) = (fromDT - t0) + vals.length := by omega
    set ov := ((p.values.length : ℤ) - (fromDT - t0)).toNat with hovdef
    set blended := List.zipWith (· + ·)
        (List.zipWith (· * ·) (vs.drop (fromDT - t0).toNat)
          (ratioFn ov ++ List.replicate (vals.length - ov) 0))
        (List.zipWith (· * ·) vals
          ((ratioFn ov).map (fun r => 1 - r) ++
            List.replicate (vals.length - ov) 1)) with hblend
    have hblen : blended.length = vals.length := by
      rw [hblend]
      simp only [List.length_zipWith, List.length_drop, List.length_append,
        List.length_map, List.length_replicate, hr ov]
      omega
    rw [hb]
    have hb2 : (fromDT - t0) + (vals.length : ℤ) =
        (fromDT - t0) + (blended.length : ℤ) := by rw [hblen]
    rw [hb2]
    obtain ⟨r, hr2, hrlen⟩ := pySliceAssign_full vs (fromDT - t0) blended (by omega)
      (by omega)
    rw [hr2]
    refine ⟨_, rfl, rfl, ?_⟩
    show r.length = _
    omega

/-- C4 counterexample.  `transition` at a start timestamp exactly at the
end of the stored values (overlap 0) first zero-pads via `resize`, then
*appends* the new values once more: the length becomes
`offset + 2*len(newValues)` (here 4), not `max(old length, offset+len)`
(here 3), and a gap of zeros is left where the new values belong. -/
theorem profile_transition_append_length :
    (Profile.transition (fun n => List.replicate n 1) ⟨some 0, [1, 2]⟩ 2
        [3]).map (fun q => q.values) = some [1, 2, 0, 3] ∧
      (4 : ℕ) ≠ max 2 ((2 : ℕ) + 1) := by
  constructor
  · rfl
  · norm_num

/-- C4 (amended).  For an anchored profile and `fromDT ≥ t0`:
`set` and `add` always succeed, keep the anchor unchanged and leave the
stored length at `max(previous length, start offset + length written)`;
`transition` does the same provided the overlap
`(stored length - start offset)` is negative, or positive and at most
`len(newValues)` (with overlap `0` the values are appended after a
zero-gap, doubling the tail — see the counterexample — and with overlap
`> len(newValues)` the call raises). -/
theorem profile_mutate_frame (p : Profile) (t0 fromDT : ℤ) (vals : List ℚ)
    (ratioFn : ℕ → List ℚ) (hr : ∀ n, (ratioFn n).length = n)
    (h0 : p.startingDT = some t0) (hge : t0 ≤ fromDT) :
    (∃ q, p.set fromDT vals = some q ∧ q.startingDT = some t0 ∧
      q.values.length = max p.values.length ((fromDT - t0).toNat + vals.length)) ∧
    (∃ q, p.add fromDT vals = some q ∧ q.startingDT = some t0 ∧
      q.values.length = max p.values.length ((fromDT - t0).toNat + vals.length)) ∧
    (((p.values.length : ℤ) - (fromDT - t0) < 0 ∨
        (0 < (p.values.length : ℤ) - (fromDT - t0) ∧
          ((p.values.length : ℤ) - (fromDT - t0)) ≤ vals.length)) →
      ∃ q, Profile.transition ratioFn p fromDT vals = some q ∧
        q.startingDT = some t0 ∧
        q.values.length = max p.values.length ((fromDT - t0).toNat + vals.length)) :=
  ⟨profile_set_spec p t0 fromDT vals h0 hge,
    profile_add_spec p t0 fromDT vals h0 hge,
    fun hov => profile_transition_spec p t0 fromDT vals ratioFn hr h0 hge hov⟩

theorem profile_mutate_frame_witness :
    (∀ n, ((fun n => List.replicate n (1 : ℚ)) n).length = n) ∧
      (Profile.mk (some 0) [1, 2]).startingDT = some 0 ∧ (0 : ℤ) ≤ 1 ∧
      ((∃ q, (Profile.mk (some 0) [1, 2]).set 1 [9, 9, 9] = some q ∧
          q.startingDT = some (0 : ℤ) ∧
          q.values.length =
            max (Profile.mk (some 0) [1, 2]).values.length
              (((1 : ℤ) - 0).toNat + ([9, 9, 9] : List ℚ).length)) ∧
        (∃ q, (Profile.mk (some 0) [1, 2]).add 1 [9, 9, 9] = some q ∧
          q.startingDT = some (0 : ℤ) ∧
          q.values.length =
            max (Profile.mk (some 0) [1, 2]).values.length
              (((1 : ℤ) - 0).toNat + ([9, 9, 9] : List ℚ).length)) ∧
        ((((Profile.mk (some 0) [1, 2]).values.length : ℤ) - ((1 : ℤ) - 0) < 0 ∨
            (0 < ((Profile.mk (some 0) [1, 2]).values.length : ℤ) - ((1 : ℤ) - 0) ∧
              (((Profile.mk (some 0) [1, 2]).values.length : ℤ) - ((1 : ℤ) - 0)) ≤
                ([9, 9, 9] : List ℚ).length)) →
          ∃ q, Profile.transition (fun n => List.replicate n (1 : ℚ))
              (Profile.mk (some 0) [1, 2]) 1 [9, 9, 9] = some q ∧
            q.startingDT = some (0 : ℤ) ∧
            q.values.length =
              max (Profile.mk (some 0) [1, 2]).values.length
                (((1 : ℤ) - 0).toNat + ([9, 9, 9] : List ℚ).length))) :=
  ⟨fun n => List.length_replicate n 1, rfl, by norm_num,
    profile_mutate_frame (Profile.mk (some 0) [1, 2]) 0 1 [9, 9, 9]
      (fun n => List.replicate n (1 : ℚ)) (fun n => List.length_replicate n 1)
      rfl (by norm_num)⟩

/-! ### C7: grid target demand -/

theorem zipWith_sub_replicate_zero (n : ℕ) :
    List.zipWith (· - ·) (List.replicate n (0:ℚ)) (List.replicate n (0:ℚ)) =
      List.replicate n 0 := by
  induction n with
  | zero => rfl
  | succ n ih => simp only [List.replicate_succ, List.zipWith_cons_cons, ih, sub_zero]

theorem sum_map_add_const (l : List ℚ) (d : ℚ) :
    (l.map (fun x => x + d)).sum = l.sum + l.length * d := by
  induction l with
  | nil => simp
  | cons x xs ih => simp [ih]; ring

theorem sum_map_mul_const (l : List ℚ) (c : ℚ) :
    (l.map (fun x => x * c)).sum = l.sum * c := by
  induction l with
  | nil => simp
  | cons x xs ih => simp [ih]; ring

theorem zipWith_nonneg (f : ℚ → ℚ → ℚ) :
    ∀ (l1 l2 : List ℚ), (∀ a ∈ l1, ∀ b ∈ l2, 0 ≤ f a b) →
      ∀ x ∈ List.zipWith f l1 l2, 0 ≤ x := by
  intro l1
  induction l1 with
  | nil => intro l2 _ x hx; simp at hx
  | cons a l1 ih =>
      intro l2 hf x hx
      cases l2 with
      | nil => simp at hx
      | cons b l2 =>
          simp only [List.zipWith_cons_cons, List.mem_cons] at hx
          rcases hx with rfl | hx
          · exact hf a (by simp) b (by simp)
          · exact ih l2 (fun a2 ha2 b2 hb2 => hf a2 (by simp [ha2]) b2 (by simp [hb2]))
              x hx

theorem pySliceAssign_nonneg (l : List ℚ) (a b : ℤ) (vals r : List ℚ)
    (h : pySliceAssign l a b vals = some r)
    (hl : ∀ x ∈ l, 0 ≤ x) (hv : ∀ x ∈ vals, 0 ≤ x) : ∀ x ∈ r, 0 ≤ x := by
  unfold pySliceAssign at h
  by_cases hg : vals.length = pyIdx l.length b - pyIdx l.length a
  · rw [if_pos hg] at h
    injection h with h
    subst h
    intro x hx
    rcases List.mem_append.1 hx with hx2 | hx2
    · rcases List.mem_append.1 hx2 with hx3 | hx3
      · exact hl x ((List.take_sublist _ _).subset hx3)
      · exact hv x hx3
    · exact hl x ((List.drop_sublist _ _).subset hx2)
  · rw [if_neg hg] at h
    exact absurd h (by simp)

theorem npResize_nonneg (l : List ℚ) (n : ℤ) (r : List ℚ)
    (h : npResize l n = some r) (hl : ∀ x ∈ l, 0 ≤ x) : ∀ x ∈ r, 0 ≤ x := by
  unfold npResize at h
  by_cases hn : n < 0
  · rw [if_pos hn] at h
    exact absurd h (by simp)
  · rw [if_neg hn] at h
    injection h with h
    subst h
    intro x hx
    rcases List.mem_append.1 hx with hx2 | hx2
    · exact hl x ((List.take_sublist _ _).subset hx2)
    · rw [List.eq_of_mem_replicate hx2]

/-- Any result of `Profile.transition` has non-negative values when the
previous values, the new values and the blend weights are non-negative
and the weights are at most 1 (all true of the cosine weights). -/
theorem transition_nonneg (ratioFn : ℕ → List ℚ) (p : Profile) (fromDT : ℤ)
    (vals : List ℚ)
    (hratio : ∀ m, ∀ x ∈ ratioFn m, 0 ≤ x ∧ x ≤ 1)
    (hp : ∀ x ∈ p.values, 0 ≤ x) (hv : ∀ x ∈ vals, 0 ≤ x) :
    ∀ q, Profile.transition ratioFn p fromDT vals = some q →
      ∀ x ∈ q.values, 0 ≤ x := by
  intro q hq
  unfold Profile.transition at hq
  cases h0 : p.startingDT with
  | none =>
      rw [h0] at hq
      dsimp only at hq
      unfold Profile.set at hq
      rw [h0] at hq
      dsimp only at hq
      injection hq with hq
      subst hq
      exact hv
  | some t0 =>
      rw [h0] at hq
      dsimp only at hq
      set newSize : ℤ := Profile.minutesBetween t0 fromDT + vals.length with hns
      have hvs : ∀ vs, (if newSize > (p.values.length : ℤ) then
          npResize p.values newSize else some p.values) = some vs →
          ∀ x ∈ vs, 0 ≤ x := by
        intro vs hvs2
        by_cases hgt : newSize > (p.values.length : ℤ)
        · rw [if_pos hgt] at hvs2
          exact npResize_nonneg _ _ _ hvs2 hp
        · rw [if_neg hgt] at hvs2
          injection hvs2 with hvs2
          subst hvs2
          exact hp
      rcases hres : (if newSize > (p.values.length : ℤ) then
          npResize p.values newSize else some p.values) with _ | vs
      · rw [hres] at hq
        exact absurd hq (by simp)
      · rw [hres] at hq
        have hvsn : ∀ x ∈ vs, 0 ≤ x := hvs vs hres
        dsimp only at hq
        by_cases hov0 : (p.values.length : ℤ) - Profile.minutesBetween t0 fromDT = 0
        · rw [if_pos hov0] at hq
          injection hq with hq
          subst hq
          intro x hx
          rcases List.mem_append.1 hx with hx2 | hx2
          · exact hvsn x hx2
          · exact hv x hx2
        · rw [if_neg hov0] at hq
          by_cases hovneg : (p.values.length : ℤ) - Profile.minutesBetween t0 fromDT < 0
          · rw [if_pos hovneg] at hq
            rcases hassign : pySliceAssign vs (Profile.minutesBetween t0 fromDT)
                (vs.length : ℤ) vals with _ | r
            · rw [hassign] at hq
              exact absurd hq (by simp)
            · rw [hassign] at hq
              injection hq with hq
              subst hq
              exact pySliceAssign_nonneg _ _ _ _ _ hassign hvsn hv
          · rw [if_neg hovneg] at hq
            by_cases hpad : (vals.length : ℤ) <
                (p.values.length : ℤ) - Profile.minutesBetween t0 fromDT
            · rw [if_pos hpad] at hq
              exact absurd hq (by simp)
            · rw [if_neg hpad] at hq
              set ov := ((p.values.length : ℤ) -
                Profile.minutesBetween t0 fromDT).toNat with hovd
              have hmask1 : ∀ x ∈ ratioFn ov ++
                  List.replicate (vals.length - ov) (0:ℚ), 0 ≤ x := by
                intro x hx
                rcases List.mem_append.1 hx with hx2 | hx2
                · exact (hratio ov x hx2).1
                · rw [List.eq_of_mem_replicate hx2]
              have hmask2 : ∀ x ∈ (ratioFn ov).map (fun r => 1 - r) ++
                  List.replicate (vals.length - ov) (1:ℚ), 0 ≤ x := by
                intro x hx
                rcases List.mem_append.1 hx with hx2 | hx2
                · rcases List.mem_map.1 hx2 with ⟨y, hy, rfl⟩
                  have := (hratio ov y hy).2
                  linarith
                · rw [List.eq_of_mem_replicate hx2]
                  norm_num
              have hblend : ∀ x ∈ List.zipWith (· + ·)
                  (List.zipWith (· * ·)
                    (vs.drop (Profile.minutesBetween t0 fromDT).toNat)
                    (ratioFn ov ++ List.replicate (vals.length - ov) 0))
                  (List.zipWith (· * ·) vals
                    ((ratioFn ov).map (fun r => 1 - r) ++
                      List.replicate (vals.length - ov) 1)), 0 ≤ x := by
                apply zipWith_nonneg
                intro a2 ha2 b2 hb2
                have ha3 : 0 ≤ a2 := by
                  refine zipWith_nonneg _ _ _ ?_ a2 ha2
                  intro a4 ha4 b4 hb4
                  exact mul_nonneg (hvsn a4 ((List.drop_sublist _ _).subset ha4))
                    (hmask1 b4 hb4)
                have hb3 : 0 ≤ b2 := by
                  refine zipWith_nonneg _ _ _ ?_ b2 hb2
                  intro a4 ha4 b4 hb4
                  exact mul_nonneg (hv a4 ha4) (hmask2 b4 hb4)
                linarith
              rcases hassign : pySliceAssign vs (Profile.minutesBetween t0 fromDT)
                  (vs.length : ℤ) (List.zipWith (· + ·)
                  (List.zipWith (· * ·)
                    (vs.drop (Profile.minutesBetween t0 fromDT).toNat)
                    (ratioFn ov ++ List.replicate (vals.length - ov) 0))
                  (List.zipWith (· * ·) vals
                    ((ratioFn ov).map (fun r => 1 - r) ++
                      List.replicate (vals.length - ov) 1))) with _ | r
              · rw [hassign] at hq
                exact absurd hq (by simp)
              · rw [hassign] at hq
                injection hq with hq
                subst hq
                exact pySliceAssign_nonneg _ _ _ _ _ hassign hvsn hblend

/-- C7 (amended).  In `Grid.calculateTargetDemand` with noised expected
consumption `E0 * f` (`f ∈ [0.9, 1.1]` is the random noise factor), the
locally computed target curve integrates over the requested window to
at least `0.9 * E0` and is everywhere non-negative, and the stored
`targetDemand` profile stays non-negative; the integral property of
the raw curve does *not* survive the cosine blending into the stored
profile (see the counterexample). -/
theorem grid_target_demand (baseDemand smoothDemand : List ℚ) (E0 f : ℚ)
    (n : ℕ) (prev : Profile) (ratioFn : ℕ → List ℚ) (fromDT : ℤ)
    (hf1 : 9 / 10 ≤ f) (hE0 : 0 ≤ E0) (hn : 0 < n)
    (hlen : 1440 + n ≤ baseDemand.length)
    (hlen2 : 1440 + n ≤ smoothDemand.length)
    (hdiv : 0 < ((((List.zipWith (· - ·) smoothDemand baseDemand).drop 1440).take n).sum) ∨
      ((((List.zipWith (· - ·) smoothDemand baseDemand).drop 1440).take n).sum) / 60 < E0 * f)
    (hratio : ∀ m, ∀ x ∈ ratioFn m, 0 ≤ x ∧ x ≤ 1)
    (hprev : ∀ x ∈ prev.values, 0 ≤ x) :
    (9 / 10) * E0 ≤
      ((Grid.calculateTargetDemandRaw baseDemand smoothDemand (E0 * f) n).take n).sum / 60 ∧
    (∀ x ∈ Grid.calculateTargetDemandRaw baseDemand smoothDemand (E0 * f) n, 0 ≤ x) ∧
    ∀ q, Grid.calculateTargetDemand ratioFn prev fromDT baseDemand smoothDemand
        (E0 * f) n = some q → ∀ x ∈ q.values, 0 ≤ x := by
  set td0 := (List.zipWith (· - ·) smoothDemand baseDemand).drop 1440 with htd0
  have htd0len : n ≤ td0.length := by
    rw [htd0, List.length_drop, List.length_zipWith]
    omega
  have htklen : (td0.take n).length = n := by
    rw [List.length_take]
    omega
  set s0 := (td0.take n).sum with hs0
  set E := E0 * f with hE
  have hE9 : (9 / 10) * E0 ≤ E := by
    calc (9 / 10) * E0 = E0 * (9 / 10) := by ring
    _ ≤ E0 * f := mul_le_mul_of_nonneg_left hf1 hE0
    _ = E := by rw [hE]
  have hraw_nonneg : ∀ x ∈ Grid.calculateTargetDemandRaw baseDemand smoothDemand
      E n, 0 ≤ x := by
    unfold Grid.calculateTargetDemandRaw
    intro x hx
    dsimp only at hx
    rcases List.mem_map.1 hx with ⟨y, _, rfl⟩
    exact le_max_right y 0
  have hkey : E ≤ ((Grid.calculateTargetDemandRaw baseDemand smoothDemand E
      n).take n).sum / 60 := by
    rw [le_div_iff₀ (by norm_num : (0:ℚ) < 60)]
    unfold Grid.calculateTargetDemandRaw
    dsimp only
    rw [← htd0, ← hs0]
    rw [← List.map_take]
    have hclamp : ∀ (X : List ℚ), (X.take n).sum ≤
        ((X.take n).map (fun x => max x 0)).sum := by
      intro X
      have h2 := List.sum_le_sum (l := X.take n) (f := fun x => x)
        (g := fun x => max x 0) (fun i _ => le_max_left i 0)
      rwa [List.map_id'] at h2
    by_cases hb : E ≤ s0 / 60
    · rw [if_pos hb]
      refine le_trans ?_ (hclamp _)
      rw [← List.map_take, sum_map_mul_const, ← hs0]
      have hs0pos : 0 < s0 := by
        rcases hdiv with h | h
        · exact h
        · exact absurd hb (not_le.2 h)
      have : s0 * (E / (s0 / 60)) = E * 60 := by
        field_simp
      rw [this]
    · rw [if_neg hb]
      refine le_trans ?_ (hclamp _)
      rw [← List.map_take, sum_map_add_const, ← hs0, htklen]
      have hnne : (n : ℚ) ≠ 0 := Nat.cast_ne_zero.2 (by omega)
      have : s0 + (n : ℚ) * ((E - s0 / 60) / ((n : ℚ) / 60)) = E * 60 := by
        field_simp
      rw [this]
  refine ⟨le_trans hE9 hkey, hraw_nonneg, ?_⟩
  intro q hq
  unfold Grid.calculateTargetDemand at hq
  exact transition_nonneg ratioFn prev fromDT _ hratio hprev hraw_nonneg q hq

/-- C7 counterexample.  After `calculateTargetDemand`, the *stored*
`targetDemand` can integrate to far less than `0.9 ×` the expected
consumption computed in that call: with expected consumption 60 kWh over
a 1-minute window, the raw curve is `[3600]` kW, but the cosine
crossfade with the previously stored tail (here a zero tail, overlap 1,
cosine weight `(cos 0 + 1)/2 = 1`) stores `0` on the whole window, so
`sum(targetDemand)/60 = 0 < 0.9 * 60`. -/
theorem grid_target_blend_loses_integral :
    (Grid.calculateTargetDemand (fun _ => [(1:ℚ)])
        ⟨some (-10), List.replicate 11 0⟩ 0 (List.replicate 1441 0)
        (List.replicate 1441 0) 60 1).bind (fun q => q.get 0 1) =
      some [(0:ℚ)] ∧ ((0:ℚ)) / 60 < (9 / 10) * 60 := by
  have hzip : List.zipWith (· - ·) (List.replicate 1441 (0:ℚ))
      (List.replicate 1441 (0:ℚ)) = List.replicate 1441 0 :=
    zipWith_sub_replicate_zero 1441
  have hraw : Grid.calculateTargetDemandRaw (List.replicate 1441 0)
      (List.replicate 1441 0) 60 1 = [(3600:ℚ)] := by
    unfold Grid.calculateTargetDemandRaw
    dsimp only
    rw [hzip]
    rw [show List.drop 1440 (List.replicate 1441 (0:ℚ)) = [0] by
      rw [List.drop_replicate]; rfl]
    norm_num
  have htr : Profile.transition (fun _ => [(1:ℚ)])
      ⟨some (-10), List.replicate 11 0⟩ 0 [(3600:ℚ)] =
      some ⟨some (-10), List.replicate 11 0⟩ := by
    unfold Profile.transition
    dsimp only [Profile.minutesBetween]
    norm_num
    unfold pySliceAssign pyIdx
    norm_num
    rw [show Int.toNat 10 = 10 from rfl, show Int.toNat 11 = 11 from rfl]
    norm_num
    decide
  constructor
  · unfold Grid.calculateTargetDemand
    rw [hraw, htr]
    rfl
  · norm_num

theorem grid_target_demand_witness :
    ((9:ℚ) / 10 ≤ 1) ∧ ((0:ℚ) ≤ 60) ∧ (0 < 1) ∧
      ((9 / 10) * 60 ≤
        ((Grid.calculateTargetDemandRaw (List.replicate 1441 0)
          (List.replicate 1441 0) ((60:ℚ) * 1) 1).take 1).sum / 60 ∧
      (∀ x ∈ Grid.calculateTargetDemandRaw (List.replicate 1441 0)
          (List.replicate 1441 0) ((60:ℚ) * 1) 1, 0 ≤ x) ∧
      ∀ q, Grid.calculateTargetDemand (fun _ => [(1:ℚ)]) ⟨none, []⟩ 0
          (List.replicate 1441 0) (List.replicate 1441 0) ((60:ℚ) * 1) 1 =
          some q → ∀ x ∈ q.values, 0 ≤ x) := by
  refine ⟨by norm_num, by norm_num, by norm_num, ?_⟩
  refine grid_target_demand (List.replicate 1441 0) (List.replicate 1441 0)
    60 1 1 ⟨none, []⟩ (fun _ => [(1:ℚ)]) 0 (by norm_num) (by norm_num)
    (by norm_num) (by rw [List.length_replicate])
    (by rw [List.length_replicate]) ?_ ?_ ?_
  · right
    rw [zipWith_sub_replicate_zero]
    rw [show List.drop 1440 (List.replicate 1441 (0:ℚ)) = [0] by
      rw [List.drop_replicate]; rfl]
    norm_num
  · intro m x hx
    rcases List.mem_singleton.1 hx with rfl
    norm_num
  · intro x hx
    simp at hx


/-! ### C1: correctness of the Accumulator SMART greedy under feasibility hypotheses -/


namespace Accumulator

theorem mA_zero (A : Finset ℕ) : mA A 0 = 0 := by
  unfold mA
  simp

theorem mA_nonneg (A : Finset ℕ) (j : ℕ) : 0 ≤ mA A j := by
  unfold mA
  positivity

theorem mA_mono (A : Finset ℕ) {j k : ℕ} (h : j ≤ k) : mA A j ≤ mA A k := by
  unfold mA
  have hsub : A.filter (fun x => x < j) ⊆ A.filter (fun x => x < k) := by
    apply Finset.monotone_filter_right
    intro x hx
    omega
  exact_mod_cast Finset.card_le_card hsub

theorem mA_union {A T : Finset ℕ} (h : Disjoint A T) (j : ℕ) :
    mA (A ∪ T) j = mA A j + mA T j := by
  unfold mA
  rw [Finset.filter_union, Finset.card_union_of_disjoint (Finset.disjoint_filter_filter h)]
  push_cast
  ring

theorem mA_insert {A : Finset ℕ} {s : ℕ} (h : s ∉ A) (j : ℕ) :
    mA (insert s A) j = mA A j + if s < j then 1 else 0 := by
  unfold mA
  rw [Finset.filter_insert]
  split_ifs with hs
  · rw [Finset.card_insert_of_not_mem (fun hmem => h (Finset.mem_filter.mp hmem).1)]
    push_cast
    ring
  · ring

theorem mA_erase {A : Finset ℕ} {s : ℕ} (h : s ∈ A) (j : ℕ) :
    mA (A.erase s) j = mA A j - if s < j then 1 else 0 := by
  unfold mA
  rw [Finset.filter_erase]
  split_ifs with hs
  · have hmem : s ∈ A.filter (fun x => x < j) := Finset.mem_filter.mpr ⟨h, hs⟩
    rw [Finset.card_erase_of_mem hmem]
    have hpos : 0 < (A.filter (fun x => x < j)).card := Finset.card_pos.mpr ⟨s, hmem⟩
    push_cast [Nat.cast_pred hpos]
    ring
  · have hnm : s ∉ A.filter (fun x => x < j) := fun hmem => hs (Finset.mem_filter.mp hmem).2
    rw [Finset.erase_eq_of_not_mem hnm]
    ring

theorem mA_succ (A : Finset ℕ) (j : ℕ) :
    mA A (j + 1) = mA A j + if j ∈ A then 1 else 0 := by
  unfold mA
  by_cases hj : j ∈ A
  · have hfe : A.filter (fun x => x < j + 1) = insert j (A.filter (fun x => x < j)) := by
      ext x
      simp only [Finset.mem_filter, Finset.mem_insert]
      constructor
      · rintro ⟨hx, hlt⟩
        rcases Nat.lt_succ_iff_lt_or_eq.mp hlt with h' | h'
        · exact Or.inr ⟨hx, h'⟩
        · exact Or.inl h'
      · rintro (h' | ⟨hx, hlt⟩)
        · exact ⟨by rw [h']; exact hj, by omega⟩
        · exact ⟨hx, Nat.lt_succ_of_lt hlt⟩
    have hnm : j ∉ A.filter (fun x => x < j) := fun hmem => by
      have := (Finset.mem_filter.mp hmem).2
      omega
    rw [hfe, Finset.card_insert_of_not_mem hnm, if_pos hj]
    push_cast
    ring
  · have hfe : A.filter (fun x => x < j + 1) = A.filter (fun x => x < j) := by
      ext x
      simp only [Finset.mem_filter]
      constructor
      · rintro ⟨hx, hlt⟩
        refine ⟨hx, ?_⟩
        rcases Nat.lt_succ_iff_lt_or_eq.mp hlt with h' | h'
        · exact h'
        · exact absurd (h' ▸ hx) hj
      · rintro ⟨hx, hlt⟩
        exact ⟨hx, Nat.lt_succ_of_lt hlt⟩
    rw [hfe, if_neg hj]
    ring

theorem mA_lt_of {A : Finset ℕ} {s k1 k2 : ℕ} (hs : s ∈ A) (h1 : k1 ≤ s) (h2 : s < k2) :
    mA A k1 < mA A k2 := by
  unfold mA
  have hsub : insert s (A.filter (fun x => x < k1)) ⊆ A.filter (fun x => x < k2) := by
    intro x hx
    rcases Finset.mem_insert.mp hx with rfl | hx'
    · exact Finset.mem_filter.mpr ⟨hs, h2⟩
    · have := Finset.mem_filter.mp hx'
      exact Finset.mem_filter.mpr ⟨this.1, by omega⟩
  have hnm : s ∉ A.filter (fun x => x < k1) := fun hmem => by
    have := (Finset.mem_filter.mp hmem).2
    omega
  have hcard := Finset.card_le_card hsub
  rw [Finset.card_insert_of_not_mem hnm] at hcard
  omega

theorem mA_subset {T' T : Finset ℕ} (h : T' ⊆ T) (j : ℕ) : mA T' j ≤ mA T j := by
  unfold mA
  exact_mod_cast Finset.card_le_card (Finset.filter_subset_filter _ h)

theorem mA_split (T : Finset ℕ) {k j : ℕ} (h : k ≤ j) :
    mA T j = mA T k + ((T.filter (fun x => k ≤ x ∧ x < j)).card : ℤ) := by
  unfold mA
  have hfe : T.filter (fun x => x < j)
      = T.filter (fun x => x < k) ∪ T.filter (fun x => k ≤ x ∧ x < j) := by
    ext x
    simp only [Finset.mem_filter, Finset.mem_union]
    constructor
    · rintro ⟨hx, hlt⟩
      by_cases hxk : x < k
      · exact Or.inl ⟨hx, hxk⟩
      · exact Or.inr ⟨hx, by omega, hlt⟩
    · rintro (⟨hx, hlt⟩ | ⟨hx, _, hlt⟩)
      · exact ⟨hx, by omega⟩
      · exact ⟨hx, hlt⟩
  have hdis : Disjoint (T.filter (fun x => x < k)) (T.filter (fun x => k ≤ x ∧ x < j)) := by
    rw [Finset.disjoint_left]
    intro x hx1 hx2
    have h1 := (Finset.mem_filter.mp hx1).2
    have h2 := (Finset.mem_filter.mp hx2).2
    omega
  rw [hfe, Finset.card_union_of_disjoint hdis]
  push_cast
  ring

end Accumulator

namespace Accumulator

theorem le_ell {L : ℕ → ℤ} {A : Finset ℕ} {k j : ℕ} (h : k ≤ j) :
    L k - mA A k ≤ ell L A j := by
  induction j with
  | zero =>
      have hk : k = 0 := Nat.le_zero.mp h
      subst hk
      exact le_refl _
  | succ j ih =>
      rcases Nat.le_succ_iff_eq_or_le.mp h with h' | h'
      · subst h'
        exact le_max_right _ _
      · exact (ih h').trans (le_max_left _ _)

theorem ell_exists (L : ℕ → ℤ) (A : Finset ℕ) (j : ℕ) :
    ∃ k, k ≤ j ∧ ell L A j = L k - mA A k := by
  induction j with
  | zero => exact ⟨0, le_refl 0, rfl⟩
  | succ j ih =>
      obtain ⟨k, hk, he⟩ := ih
      rcases le_total (ell L A j) (L (j + 1) - mA A (j + 1)) with h | h
      · exact ⟨j + 1, le_refl _, max_eq_right h⟩
      · exact ⟨k, Nat.le_succ_of_le hk, (max_eq_left h).trans he⟩

theorem ell_le {L : ℕ → ℤ} {A : Finset ℕ} {j : ℕ} {b : ℤ}
    (h : ∀ k ≤ j, L k - mA A k ≤ b) : ell L A j ≤ b := by
  induction j with
  | zero => exact h 0 (le_refl 0)
  | succ j ih =>
      refine max_le (ih fun k hk => h k (Nat.le_succ_of_le hk)) (h (j + 1) (le_refl _))

theorem ell_mono {L : ℕ → ℤ} {A : Finset ℕ} {j j' : ℕ} (h : j ≤ j') :
    ell L A j ≤ ell L A j' := by
  obtain ⟨k, hk, he⟩ := ell_exists L A j
  rw [he]
  exact le_ell (hk.trans h)

theorem ell_insert {L : ℕ → ℤ} {A : Finset ℕ} {s : ℕ} (h : s ∉ A) (j : ℕ) :
    ell L (insert s A) j = ell L A j - if ell L A s < ell L A j then 1 else 0 := by
  apply le_antisymm
  · apply ell_le
    intro k hk
    rw [mA_insert h]
    have hke := le_ell (A := A) (L := L) hk
    by_cases hsk : s < k
    · rw [if_pos hsk]
      by_cases hc : ell L A s < ell L A j
      · rw [if_pos hc]
        omega
      · rw [if_neg hc]
        omega
    · rw [if_neg hsk]
      have hks : k ≤ s := by omega
      have hke2 := le_ell (A := A) (L := L) hks
      by_cases hc : ell L A s < ell L A j
      · rw [if_pos hc]
        omega
      · rw [if_neg hc]
        omega
  · split_ifs with hc
    · obtain ⟨k0, hk0, he⟩ := ell_exists L A j
      have hle := le_ell (A := insert s A) (L := L) hk0
      rw [mA_insert h] at hle
      split_ifs at hle with hsk
      · omega
      · omega
    · have hjs' : ell L A j ≤ ell L A s := by omega
      by_cases hjs : j ≤ s
      · obtain ⟨k0, hk0, he⟩ := ell_exists L A j
        have hle := le_ell (A := insert s A) (L := L) hk0
        rw [mA_insert h] at hle
        have hsk : ¬ s < k0 := by omega
        rw [if_neg hsk] at hle
        omega
      · have hsj : s ≤ j := by omega
        have hmono := ell_mono (L := L) (A := A) hsj
        obtain ⟨k0, hk0, he⟩ := ell_exists L A s
        have hle := le_ell (A := insert s A) (L := L) (hk0.trans hsj)
        rw [mA_insert h] at hle
        have hsk : ¬ s < k0 := by omega
        rw [if_neg hsk] at hle
        omega

theorem uuAux_le {U : ℕ → ℤ} {A : Finset ℕ} :
    ∀ (d : ℕ) {j k : ℕ}, j ≤ k → k ≤ j + d → uuAux U A j d ≤ U k - mA A k := by
  intro d
  induction d with
  | zero =>
      intro j k h1 h2
      have : k = j := by omega
      subst this
      exact le_refl _
  | succ d ih =>
      intro j k h1 h2
      rcases Nat.eq_or_lt_of_le h1 with h' | h'
      · subst h'
        exact min_le_left _ _
      · exact (min_le_right _ _).trans (ih h' (by omega))

theorem uuAux_exists (U : ℕ → ℤ) (A : Finset ℕ) :
    ∀ (d j : ℕ), ∃ k, j ≤ k ∧ k ≤ j + d ∧ uuAux U A j d = U k - mA A k := by
  intro d
  induction d with
  | zero => exact fun j => ⟨j, le_refl _, by omega, rfl⟩
  | succ d ih =>
      intro j
      obtain ⟨k, hk1, hk2, he⟩ := ih (j + 1)
      rcases le_total (U j - mA A j) (uuAux U A (j + 1) d) with h | h
      · exact ⟨j, le_refl _, by omega, min_eq_left h⟩
      · exact ⟨k, by omega, by omega, (min_eq_right h).trans he⟩

theorem le_uuAux {U : ℕ → ℤ} {A : Finset ℕ} {b : ℤ} :
    ∀ (d : ℕ) (j : ℕ), (∀ k, j ≤ k → k ≤ j + d → b ≤ U k - mA A k) → b ≤ uuAux U A j d := by
  intro d
  induction d with
  | zero => exact fun j h => h j (le_refl _) (by omega)
  | succ d ih =>
      intro j h
      refine le_min (h j (le_refl _) (by omega)) (ih (j + 1) fun k h1 h2 => h k (by omega) (by omega))

theorem uu_le {U : ℕ → ℤ} {A : Finset ℕ} {N j k : ℕ} (h1 : j ≤ k) (h2 : k ≤ N) :
    uu U A N j ≤ U k - mA A k :=
  uuAux_le _ h1 (by omega)

theorem uu_exists {U : ℕ → ℤ} {A : Finset ℕ} {N j : ℕ} (h : j ≤ N) :
    ∃ k, j ≤ k ∧ k ≤ N ∧ uu U A N j = U k - mA A k := by
  obtain ⟨k, hk1, hk2, he⟩ := uuAux_exists U A (N - j) j
  exact ⟨k, hk1, by omega, he⟩

theorem le_uu {U : ℕ → ℤ} {A : Finset ℕ} {N j : ℕ} {b : ℤ} (hjN : j ≤ N)
    (hb : ∀ k, j ≤ k → k ≤ N → b ≤ U k - mA A k) : b ≤ uu U A N j := by
  refine le_uuAux _ _ fun k h1 h2 => hb k h1 (by omega)

theorem uu_mono {U : ℕ → ℤ} {A : Finset ℕ} {N j j' : ℕ} (h : j ≤ j') (h' : j' ≤ N) :
    uu U A N j ≤ uu U A N j' := by
  obtain ⟨k, hk1, hk2, he⟩ := uu_exists h'
  rw [he]
  exact uu_le (h.trans hk1) hk2

theorem uu_insert {U : ℕ → ℤ} {A : Finset ℕ} {s N : ℕ} (h : s ∉ A) (hsN : s + 1 ≤ N)
    {j : ℕ} (hj : j ≤ N) :
    uu U (insert s A) N j = uu U A N j - if uu U A N (s + 1) ≤ uu U A N j then 1 else 0 := by
  rcases le_or_lt j s with hjs | hjs
  · apply le_antisymm
    · split_ifs with hc
      · have hmono := uu_mono (U := U) (A := A) (by omega : j ≤ s + 1) hsN
        obtain ⟨k, hk1, hk2, he⟩ := uu_exists (A := A) (U := U) hsN
        have hle := uu_le (A := insert s A) (U := U) (by omega : j ≤ k) hk2
        rw [mA_insert h, if_pos (by omega : s < k)] at hle
        omega
      · obtain ⟨k, hk1, hk2, he⟩ := uu_exists (A := A) (U := U) hj
        have hle := uu_le (A := insert s A) (U := U) hk1 hk2
        rw [mA_insert h] at hle
        split_ifs at hle with hsk
        · omega
        · omega
    · apply le_uu hj
      intro k h1 h2
      rw [mA_insert h]
      by_cases hsk : s < k
      · rw [if_pos hsk]
        have h1' := uu_le (A := A) (U := U) (by omega : s + 1 ≤ k) h2
        have hmono := uu_mono (U := U) (A := A) (by omega : j ≤ s + 1) hsN
        split_ifs with hc
        · omega
        · omega
      · rw [if_neg hsk]
        have h1' := uu_le (A := A) (U := U) h1 h2
        split_ifs with hc
        · omega
        · omega
  · have hc : uu U A N (s + 1) ≤ uu U A N j := uu_mono (by omega) hj
    rw [if_pos hc]
    apply le_antisymm
    · obtain ⟨k, hk1, hk2, he⟩ := uu_exists (A := A) (U := U) hj
      have hle := uu_le (A := insert s A) (U := U) hk1 hk2
      rw [mA_insert h, if_pos (by omega : s < k)] at hle
      omega
    · apply le_uu hj
      intro k h1 h2
      rw [mA_insert h, if_pos (by omega : s < k)]
      have := uu_le (A := A) (U := U) h1 h2
      omega

end Accumulator

namespace Accumulator

theorem completable_specStep {L U : ℕ → ℤ} {N s : ℕ} {A : Finset ℕ} {rest : List ℕ}
    (hL0 : L 0 = 0) (hs : s + 1 ≤ N) (hsA : s ∉ A)
    (h : completable L U N A (s :: rest)) :
    completable L U N (specStep L U N A s) rest := by
  obtain ⟨T, hTrest, hdis, hok⟩ := h
  have hTrest' : ∀ t ∈ T, t = s ∨ t ∈ rest := by
    intro t ht
    exact List.mem_cons.mp (hTrest t ht)
  unfold specStep
  split_ifs with htest
  · -- accept branch
    by_cases hsT : s ∈ T
    · refine ⟨T.erase s, ?_, ?_, ?_⟩
      · intro t ht
        have htT := Finset.mem_of_mem_erase ht
        have htne := Finset.ne_of_mem_erase ht
        exact (hTrest' t htT).resolve_left htne
      · rw [Finset.disjoint_left]
        intro x hx hx'
        rcases Finset.mem_insert.mp hx with rfl | hxA
        · exact (Finset.not_mem_erase x T) hx'
        · exact Finset.disjoint_left.mp hdis hxA (Finset.mem_of_mem_erase hx')
      · have hset : insert s A ∪ T.erase s = A ∪ T := by
          ext x
          simp only [Finset.mem_union, Finset.mem_insert, Finset.mem_erase]
          constructor
          · rintro ((rfl | hxA) | ⟨hne, hxT⟩)
            · exact Or.inr hsT
            · exact Or.inl hxA
            · exact Or.inr hxT
          · rintro (hxA | hxT)
            · exact Or.inl (Or.inr hxA)
            · by_cases hxs : x = s
              · exact Or.inl (Or.inl hxs)
              · exact Or.inr ⟨hxs, hxT⟩
        rw [hset]
        exact hok
    · -- s is not in the completion T
      have hd1 : Disjoint (insert s A) T := by
        rw [Finset.disjoint_left]
        intro x hx hxT
        rcases Finset.mem_insert.mp hx with rfl | hxA
        · exact hsT hxT
        · exact Finset.disjoint_left.mp hdis hxA hxT
      have hTsub : ∀ t ∈ T, t ∈ rest := by
        intro t ht
        exact (hTrest' t ht).resolve_left (fun he => hsT (he ▸ ht))
      by_cases htight : ((Finset.Icc (s + 1) N).filter (fun k => mA A k + mA T k = U k)).Nonempty
      · have hk2mem := Finset.min'_mem _ htight
        have hk2Icc := Finset.mem_Icc.mp (Finset.mem_filter.mp hk2mem).1
        have hk2eq := (Finset.mem_filter.mp hk2mem).2
        have hk2min : ∀ k, s + 1 ≤ k → k ≤ N → mA A k + mA T k = U k →
            ((Finset.Icc (s + 1) N).filter (fun k => mA A k + mA T k = U k)).min' htight ≤ k := by
          intro k h1 h2 he
          exact Finset.min'_le _ k (Finset.mem_filter.mpr ⟨Finset.mem_Icc.mpr ⟨h1, h2⟩, he⟩)
        set k2 := ((Finset.Icc (s + 1) N).filter (fun k => mA A k + mA T k = U k)).min' htight
        have hstrict : ∀ j, s + 1 ≤ j → j < k2 → mA A j + mA T j ≠ U j := by
          intro j h1 h2 he
          have := hk2min j h1 (by omega) he
          omega
        by_cases hmid : (T.filter (fun t => s + 1 ≤ t ∧ t < k2)).Nonempty
        · obtain ⟨t, htmem⟩ := hmid
          have htT : t ∈ T := (Finset.mem_filter.mp htmem).1
          have htb : s + 1 ≤ t ∧ t < k2 := (Finset.mem_filter.mp htmem).2
          have hd2 : Disjoint (insert s A) (T.erase t) :=
            Finset.disjoint_of_subset_right (Finset.erase_subset _ _) hd1
          refine ⟨T.erase t, ?_, hd2, ?_⟩
          · intro x hx
            exact hTsub x (Finset.mem_of_mem_erase hx)
          · have hcomp : ∀ j, mA (insert s A ∪ T.erase t) j
                = mA A j + mA T j + (if s < j then 1 else 0) - (if t < j then 1 else 0) := by
              intro j
              rw [mA_union hd2, mA_insert hsA, mA_erase htT]
              ring
            intro j hj
            rw [hcomp]
            have hokj := hok j hj
            rw [mA_union hdis] at hokj
            by_cases h1 : s < j
            · by_cases h2 : t < j
              · simp only [if_pos h1, if_pos h2]
                omega
              · have hne := hstrict j (by omega) (by omega)
                simp only [if_pos h1, if_neg h2]
                omega
            · have h2 : ¬ t < j := by omega
              simp only [if_neg h1, if_neg h2]
              omega
        · -- no element of T strictly between s and k2: drop the latest element below s
          have hmid' : T.filter (fun t => s + 1 ≤ t ∧ t < k2) = ∅ :=
            Finset.not_nonempty_iff_eq_empty.mp hmid
          have hsplit := mA_split T (show s + 1 ≤ k2 by omega)
          rw [hmid'] at hsplit
          simp only [Finset.card_empty, Nat.cast_zero, add_zero] at hsplit
          have hell0 : 0 ≤ ell L A s := by
            have h0 := le_ell (L := L) (A := A) (Nat.zero_le s)
            rw [hL0, mA_zero] at h0
            omega
          have huuk2 : uu U A N (s + 1) ≤ U k2 - mA A k2 := uu_le hk2Icc.1 hk2Icc.2
          have hellT : ell L A s < mA T (s + 1) := by
            have h1 := htest.1
            omega
          have hSne : (T.filter (fun x => x < s + 1)).Nonempty := by
            apply Finset.card_pos.mp
            have hc1 : (0:ℤ) < ((T.filter (fun x => x < s + 1)).card : ℤ) := by
              have : mA T (s + 1) = ((T.filter (fun x => x < s + 1)).card : ℤ) := rfl
              omega
            exact_mod_cast hc1
          have htmem := Finset.max'_mem _ hSne
          set t := (T.filter (fun x => x < s + 1)).max' hSne
          have htT : t ∈ T := (Finset.mem_filter.mp htmem).1
          have hts : t < s + 1 := (Finset.mem_filter.mp htmem).2
          have htns : t ≠ s := fun he => hsT (he ▸ htT)
          have htmax : ∀ x ∈ T, x < s + 1 → x ≤ t := by
            intro x hx hxs
            exact Finset.le_max' (T.filter (fun y => y < s + 1)) x
              (Finset.mem_filter.mpr ⟨hx, hxs⟩)
          have hTge : ∀ j, t < j → mA T (s + 1) ≤ mA T j := by
            intro j hj
            unfold mA
            have hsub : T.filter (fun x => x < s + 1) ⊆ T.filter (fun x => x < j) := by
              intro x hx
              have h1 := Finset.mem_filter.mp hx
              have := htmax x h1.1 h1.2
              exact Finset.mem_filter.mpr ⟨h1.1, by omega⟩
            exact_mod_cast Finset.card_le_card hsub
          have hd2 : Disjoint (insert s A) (T.erase t) :=
            Finset.disjoint_of_subset_right (Finset.erase_subset _ _) hd1
          refine ⟨T.erase t, ?_, hd2, ?_⟩
          · intro x hx
            exact hTsub x (Finset.mem_of_mem_erase hx)
          · have hcomp : ∀ j, mA (insert s A ∪ T.erase t) j
                = mA A j + mA T j + (if s < j then 1 else 0) - (if t < j then 1 else 0) := by
              intro j
              rw [mA_union hd2, mA_insert hsA, mA_erase htT]
              ring
            intro j hj
            rw [hcomp]
            have hokj := hok j hj
            rw [mA_union hdis] at hokj
            by_cases h1 : t < j
            · by_cases h2 : s < j
              · simp only [if_pos h1, if_pos h2]
                omega
              · have hlj : L j - mA A j ≤ ell L A s :=
                  (le_ell (le_refl j)).trans (ell_mono (show j ≤ s by omega))
                have hTgej := hTge j h1
                simp only [if_pos h1, if_neg h2]
                omega
            · have h2 : ¬ s < j := by omega
              simp only [if_neg h1, if_neg h2]
              omega
      · -- no tight index at all: T itself still completes
        have hstrict : ∀ j, s + 1 ≤ j → j ≤ N → mA A j + mA T j ≠ U j := by
          intro j h1 h2 he
          exact htight ⟨j, Finset.mem_filter.mpr ⟨Finset.mem_Icc.mpr ⟨h1, h2⟩, he⟩⟩
        refine ⟨T, hTsub, hd1, ?_⟩
        intro j hj
        rw [mA_union hd1, mA_insert hsA]
        have hokj := hok j hj
        rw [mA_union hdis] at hokj
        by_cases h1 : s < j
        · rw [if_pos h1]
          have := hstrict j (by omega) hj
          omega
        · rw [if_neg h1]
          omega
  · -- reject branch
    by_cases hA : uu U A N (s + 1) ≤ ell L A s
    · have hsT : s ∉ T := by
        intro hsT
        obtain ⟨k1, hk1, he1⟩ := ell_exists L A s
        obtain ⟨k2, hk21, hk22, he2⟩ := uu_exists (U := U) (A := A) hs
        have hok1 := hok k1 (by omega)
        have hok2 := hok k2 hk22
        rw [mA_union hdis] at hok1 hok2
        have hlt := mA_lt_of hsT hk1 (show s < k2 by omega)
        omega
      exact ⟨T, fun t ht => (hTrest' t ht).resolve_left (fun he => hsT (he ▸ ht)), hdis, hok⟩
    · have hB : ell L A N ≤ ell L A s := by
        rcases not_and_or.mp htest with h' | h'
        · omega
        · omega
      by_cases hsT : s ∈ T
      · have hd2 : Disjoint A (T.erase s) :=
          Finset.disjoint_of_subset_right (Finset.erase_subset _ _) hdis
        refine ⟨T.erase s, ?_, hd2, ?_⟩
        · intro x hx
          exact (hTrest' x (Finset.mem_of_mem_erase hx)).resolve_left (Finset.ne_of_mem_erase hx)
        · have hcomp : ∀ j, mA (A ∪ T.erase s) j
              = mA A j + mA T j - (if s < j then 1 else 0) := by
            intro j
            rw [mA_union hd2, mA_erase hsT]
            ring
          intro j hj
          rw [hcomp]
          have hokj := hok j hj
          rw [mA_union hdis] at hokj
          by_cases h1 : s < j
          · rw [if_pos h1]
            obtain ⟨k1, hk1, he1⟩ := ell_exists L A s
            have hok1 := hok k1 (by omega)
            rw [mA_union hdis] at hok1
            have hlt := mA_lt_of hsT hk1 h1
            have hljell := le_ell (L := L) (A := A) (le_refl j)
            have hmono := ell_mono (L := L) (A := A) hj
            omega
          · rw [if_neg h1]
            omega
      · exact ⟨T, fun t ht => (hTrest' t ht).resolve_left (fun he => hsT (he ▸ ht)), hdis, hok⟩

end Accumulator

namespace Accumulator

theorem specStep_subset (L U : ℕ → ℤ) (N : ℕ) (A : Finset ℕ) (s : ℕ) :
    specStep L U N A s ⊆ insert s A := by
  unfold specStep
  split_ifs
  · exact subset_refl _
  · exact Finset.subset_insert s A

theorem completable_foldl {L U : ℕ → ℤ} {N : ℕ} (hL0 : L 0 = 0) :
    ∀ (order : List ℕ) (A : Finset ℕ), order.Nodup → (∀ s ∈ order, s < N) →
      (∀ s ∈ order, s ∉ A) → completable L U N A order →
      okB L U N (order.foldl (specStep L U N) A) := by
  intro order
  induction order with
  | nil =>
      intro A _ _ _ hc
      obtain ⟨T, hTrest, hdis, hok⟩ := hc
      have hT : T = ∅ :=
        Finset.eq_empty_of_forall_not_mem (fun x hx => (List.not_mem_nil x) (hTrest x hx))
      rw [hT, Finset.union_empty] at hok
      simpa using hok
  | cons s rest ih =>
      intro A hnd hmem hA hc
      simp only [List.foldl_cons]
      have hsr : s ∉ rest := (List.nodup_cons.mp hnd).1
      apply ih
      · exact (List.nodup_cons.mp hnd).2
      · intro x hx
        exact hmem x (List.mem_cons_of_mem s hx)
      · intro x hx hxin
        have hins := specStep_subset L U N A s hxin
        rcases Finset.mem_insert.mp hins with rfl | hxA
        · exact hsr hx
        · exact hA x (List.mem_cons_of_mem s hx) hxA
      · refine completable_specStep hL0 ?_ (hA s (List.mem_cons_self s rest)) hc
        have := hmem s (List.mem_cons_self s rest)
        omega

theorem completable_init {L U : ℕ → ℤ} {N : ℕ} {order : List ℕ}
    (hL0 : L 0 = 0)
    (hsteps : ∀ j < N, L j ≤ L (j + 1) ∧ L (j + 1) ≤ L j + 1)
    (hLU : ∀ j ≤ N, L j ≤ U j)
    (hall : ∀ j < N, j ∈ order) :
    completable L U N ∅ order := by
  refine ⟨(Finset.range N).filter (fun j => L (j + 1) = L j + 1), ?_, ?_, ?_⟩
  · intro t ht
    exact hall t (Finset.mem_range.mp (Finset.mem_filter.mp ht).1)
  · exact Finset.disjoint_empty_left _
  · have hmT : ∀ j, j ≤ N →
        mA ((Finset.range N).filter (fun j => L (j + 1) = L j + 1)) j = L j := by
      intro j
      induction j with
      | zero =>
          intro _
          rw [mA_zero, hL0]
      | succ j ihj =>
          intro hj
          rw [mA_succ, ihj (by omega)]
          have hst := hsteps j (by omega)
          by_cases hmem : j ∈ (Finset.range N).filter (fun j => L (j + 1) = L j + 1)
          · rw [if_pos hmem]
            have := (Finset.mem_filter.mp hmem).2
            omega
          · rw [if_neg hmem]
            have hne : ¬ (L (j + 1) = L j + 1) := by
              intro he
              exact hmem (Finset.mem_filter.mpr ⟨Finset.mem_range.mpr (by omega), he⟩)
            omega
    intro j hj
    rw [Finset.empty_union, hmT j hj]
    exact ⟨le_refl _, hLU j hj⟩

theorem greedy_okB {L U : ℕ → ℤ} {N : ℕ} {order : List ℕ}
    (hL0 : L 0 = 0)
    (hsteps : ∀ j < N, L j ≤ L (j + 1) ∧ L (j + 1) ≤ L j + 1)
    (hLU : ∀ j ≤ N, L j ≤ U j)
    (hnd : order.Nodup) (hmem : ∀ s ∈ order, s < N) (hall : ∀ j < N, j ∈ order) :
    okB L U N (order.foldl (specStep L U N) ∅) :=
  completable_foldl hL0 order ∅ hnd hmem (fun s _ => Finset.not_mem_empty s)
    (completable_init hL0 hsteps hLU hall)

end Accumulator

theorem getD_map_range {α : Type} (f : ℕ → α) (d : α) {j M : ℕ} (h : j < M) :
    ((List.range M).map f).getD j d = f j := by
  have hlen : j < ((List.range M).map f).length := by
    simpa using h
  rw [List.getD_eq_getElem _ _ hlen]
  simp

theorem map_range_congr {α : Type} {f g : ℕ → α} {M : ℕ} (h : ∀ j, j < M → f j = g j) :
    (List.range M).map f = (List.range M).map g :=
  List.map_congr_left (fun j hj => h j (List.mem_range.mp hj))

theorem set_map_range {α : Type} (g : ℕ → α) (x : α) {s M : ℕ} :
    ((List.range M).map g).set s x = (List.range M).map (fun j => if j = s then x else g j) := by
  apply List.ext_getElem
  · simp
  · intro n h1 h2
    rw [List.getElem_set]
    simp only [List.getElem_map, List.getElem_range]
    split_ifs with h' h'' h''
    · rfl
    · exact absurd h'.symm h''
    · exact absurd h''.symm h'
    · rfl

namespace Accumulator

theorem decFrom_zero (l : List ℤ) : decFrom 0 l = l.map (fun x => x - 1) := by
  induction l with
  | nil => rfl
  | cons x xs ih =>
      unfold decFrom
      rw [ih, List.map_cons]

theorem decFrom_map_range (f : ℕ → ℤ) :
    ∀ (M a : ℕ), decFrom a ((List.range M).map f)
      = (List.range M).map (fun j => if a ≤ j then f j - 1 else f j) := by
  intro M
  induction M generalizing f with
  | zero =>
      intro a
      simp [decFrom]
  | succ M ih =>
      intro a
      rw [List.range_succ_eq_map, List.map_cons, List.map_map, List.map_cons, List.map_map]
      cases a with
      | zero =>
          rw [decFrom_zero, List.map_cons, List.map_map]
          simp only [Nat.zero_le, if_true]
          rfl
      | succ a =>
          show decFrom (a + 1) (f 0 :: _) = _
          unfold decFrom
          rw [ih (f ∘ Nat.succ) a]
          have hif : ¬ (a + 1 ≤ 0) := by omega
          rw [if_neg hif]
          congr 1
          apply List.map_congr_left
          intro j _
          simp only [Function.comp_apply]
          by_cases hj : a ≤ j
          · rw [if_pos hj, if_pos (by omega)]
          · rw [if_neg hj, if_neg (by omega)]

theorem findIdx_id_go :
    ∀ (l : List Bool) (i k : ℕ), k < l.length → l.getD k false = true →
      (∀ j, j < k → l.getD j false = false) → List.findIdx? id l i = some (i + k) := by
  intro l
  induction l with
  | nil =>
      intro i k hk
      simp at hk
  | cons b bs ih =>
      intro i k hk ht hf
      rw [List.findIdx?_cons]
      cases k with
      | zero =>
          have hb : b = true := ht
          rw [hb]
          simp
      | succ k' =>
          have hb : b = false := hf 0 (Nat.succ_pos k')
          rw [hb]
          simp only [id, if_neg Bool.false_ne_true]
          have hrec := ih (i + 1) k' (by simpa using hk) (by simpa using ht)
            (fun j hj => by
              have := hf (j + 1) (by omega)
              simpa using this)
          rw [hrec]
          congr 1
          omega

theorem npArgmax_eq {l : List Bool} {k : ℕ} (hk : k < l.length) (ht : l.getD k false = true)
    (hf : ∀ j, j < k → l.getD j false = false) : npArgmax l = k := by
  unfold npArgmax
  rw [findIdx_id_go l 0 k hk ht hf]
  simp

end Accumulator

namespace Accumulator

theorem greedyStep_sim {L U : ℕ → ℤ} {N s : ℕ} {A : Finset ℕ} (hs : s < N) (hsA : s ∉ A) :
    greedyStep ((List.range (N + 1)).map (ell L A),
        (List.range (N + 1)).map (uu U A N),
        (List.range N).map (fun j => if j ∈ A then (1 : ℚ) else 0)) s
      = ((List.range (N + 1)).map (ell L (specStep L U N A s)),
         (List.range (N + 1)).map (uu U (specStep L U N A s) N),
         (List.range N).map (fun j => if j ∈ specStep L U N A s then (1 : ℚ) else 0)) := by
  unfold greedyStep
  dsimp only
  rw [getD_map_range _ _ (show s < N + 1 by omega),
      getD_map_range _ _ (show s + 1 < N + 1 by omega),
      List.length_map, List.length_range,
      show N + 1 - 1 = N from rfl,
      getD_map_range _ _ (show N < N + 1 by omega)]
  by_cases htest : ell L A s < uu U A N (s + 1) ∧ ell L A s < ell L A N
  · rw [if_pos htest]
    have hspec : specStep L U N A s = insert s A := by
      unfold specStep
      rw [if_pos htest]
    rw [hspec]
    have hex0 : ∃ j, ell L A s < ell L A j := ⟨N, htest.2⟩
    set k0 := Nat.find hex0 with hk0def
    have hk0spec : ell L A s < ell L A k0 := Nat.find_spec hex0
    have hk0min : ∀ j, j < k0 → ¬ ell L A s < ell L A j := fun j hj => Nat.find_min hex0 hj
    have hk0le : k0 ≤ N := Nat.find_min' hex0 htest.2
    have hiff0 : ∀ j, (k0 ≤ j ↔ ell L A s < ell L A j) := by
      intro j
      constructor
      · intro hj
        exact lt_of_lt_of_le hk0spec (ell_mono hj)
      · intro hj
        by_contra hc
        exact hk0min j (by omega) hj
    have harg0 : npArgmax (((List.range (N + 1)).map (ell L A)).map
        (fun x => decide (ell L A s < x))) = k0 := by
      rw [List.map_map]
      have hco : (fun x => decide (ell L A s < x)) ∘ ell L A
          = fun j => decide (ell L A s < ell L A j) := rfl
      rw [hco]
      apply npArgmax_eq (k := k0)
      · simpa using (by omega : k0 < N + 1)
      · rw [getD_map_range _ _ (show k0 < N + 1 by omega)]
        simpa using hk0spec
      · intro j hj
        rw [getD_map_range _ _ (show j < N + 1 by omega)]
        simpa using hk0min j hj
    have hex1 : ∃ j, uu U A N j = uu U A N (s + 1) := ⟨s + 1, rfl⟩
    set k1 := Nat.find hex1 with hk1def
    have hk1spec : uu U A N k1 = uu U A N (s + 1) := Nat.find_spec hex1
    have hk1min : ∀ j, j < k1 → ¬ uu U A N j = uu U A N (s + 1) :=
      fun j hj => Nat.find_min hex1 hj
    have hk1le : k1 ≤ s + 1 := Nat.find_min' hex1 rfl
    have hiff1 : ∀ j, j ≤ N → (k1 ≤ j ↔ uu U A N (s + 1) ≤ uu U A N j) := by
      intro j hj
      constructor
      · intro h1
        rw [← hk1spec]
        exact uu_mono h1 hj
      · intro h1
        by_contra hc
        have hjs1 : j ≤ s + 1 := by omega
        have hmono := uu_mono (A := A) (U := U) hjs1 (show s + 1 ≤ N by omega)
        exact hk1min j (by omega) (by omega)
    have harg1 : npArgmax (((List.range (N + 1)).map (uu U A N)).map
        (fun x => decide (x = uu U A N (s + 1)))) = k1 := by
      rw [List.map_map]
      have hco : (fun x => decide (x = uu U A N (s + 1))) ∘ uu U A N
          = fun j => decide (uu U A N j = uu U A N (s + 1)) := rfl
      rw [hco]
      apply npArgmax_eq (k := k1)
      · simpa using (by omega : k1 < N + 1)
      · rw [getD_map_range _ _ (show k1 < N + 1 by omega)]
        simpa using hk1spec
      · intro j hj
        rw [getD_map_range _ _ (show j < N + 1 by omega)]
        simpa using hk1min j hj
    rw [harg0, harg1, decFrom_map_range, decFrom_map_range, set_map_range]
    simp only [Prod.mk.injEq]
    refine ⟨?_, ?_, ?_⟩
    · apply map_range_congr
      intro j hj
      rw [ell_insert hsA]
      by_cases hj0 : k0 ≤ j
      · rw [if_pos hj0, if_pos ((hiff0 j).mp hj0)]
      · rw [if_neg hj0, if_neg (fun hc => hj0 ((hiff0 j).mpr hc))]
        omega
    · apply map_range_congr
      intro j hj
      rw [uu_insert hsA (show s + 1 ≤ N by omega) (show j ≤ N by omega)]
      by_cases hj1 : k1 ≤ j
      · rw [if_pos hj1, if_pos ((hiff1 j (by omega)).mp hj1)]
      · rw [if_neg hj1, if_neg (fun hc => hj1 ((hiff1 j (by omega)).mpr hc))]
        omega
    · apply map_range_congr
      intro j hj
      by_cases hjs : j = s
      · rw [if_pos hjs, if_pos (by rw [hjs]; exact Finset.mem_insert_self s A)]
      · rw [if_neg hjs]
        by_cases hjA : j ∈ A
        · rw [if_pos hjA, if_pos (Finset.mem_insert_of_mem hjA)]
        · rw [if_neg hjA, if_neg (fun hc =>
            (Finset.mem_insert.mp hc).elim hjs hjA)]
  · rw [if_neg htest]
    have hspec : specStep L U N A s = A := by
      unfold specStep
      rw [if_neg htest]
    rw [hspec]

theorem greedy_foldl_sim {L U : ℕ → ℤ} {N : ℕ} :
    ∀ (order : List ℕ) (A : Finset ℕ), (∀ s ∈ order, s < N) → (∀ s ∈ order, s ∉ A) →
      order.Nodup →
      order.foldl greedyStep
        ((List.range (N + 1)).map (ell L A),
         (List.range (N + 1)).map (uu U A N),
         (List.range N).map (fun j => if j ∈ A then (1 : ℚ) else 0))
        = ((List.range (N + 1)).map (ell L (order.foldl (specStep L U N) A)),
           (List.range (N + 1)).map (uu U (order.foldl (specStep L U N) A) N),
           (List.range N).map
             (fun j => if j ∈ order.foldl (specStep L U N) A then (1 : ℚ) else 0)) := by
  intro order
  induction order with
  | nil =>
      intro A _ _ _
      simp only [List.foldl_nil]
  | cons s rest ih =>
      intro A hmem hA hnd
      simp only [List.foldl_cons]
      rw [greedyStep_sim (hmem s (List.mem_cons_self s rest)) (hA s (List.mem_cons_self s rest))]
      apply ih
      · intro x hx
        exact hmem x (List.mem_cons_of_mem s hx)
      · intro x hx hxin
        have hins := specStep_subset L U N A s hxin
        rcases Finset.mem_insert.mp hins with rfl | hxA
        · exact (List.nodup_cons.mp hnd).1 hx
        · exact hA x (List.mem_cons_of_mem s hx) hxA
      · exact (List.nodup_cons.mp hnd).2

end Accumulator

theorem chain_scanl_add (r : ℚ) :
    ∀ (l : List ℚ) (c : ℚ), (∀ x ∈ l, 0 ≤ x ∧ x ≤ r) →
      List.Chain' (fun a b => a ≤ b ∧ b ≤ a + r) (l.scanl (· + ·) c) := by
  intro l
  induction l with
  | nil =>
      intro c _
      simp [List.scanl]
  | cons x xs ih =>
      intro c hmem
      rw [List.scanl_cons]
      have hx := hmem x (List.mem_cons_self x xs)
      have htail := ih (c + x) (fun y hy => hmem y (List.mem_cons_of_mem x hy))
      have hhead : ∀ y ∈ (xs.scanl (· + ·) (c + x)).head?, c ≤ y ∧ y ≤ c + r := by
        intro y hy
        cases xs with
        | nil =>
            simp [List.scanl] at hy
            constructor <;> [linarith [hx.1]; linarith [hx.2]]
        | cons z zs =>
            rw [List.scanl_cons] at hy
            simp at hy
            constructor <;> [linarith [hx.1]; linarith [hx.2]]
      exact List.chain'_cons'.mpr ⟨hhead, htail⟩

theorem npCumsum_chain (r : ℚ) (l : List ℚ) (h : ∀ x ∈ l, 0 ≤ x ∧ x ≤ r) :
    List.Chain' (fun a b => a ≤ b ∧ b ≤ a + r) (npCumsum l) := by
  unfold npCumsum
  rw [List.drop_one]
  exact (chain_scanl_add r l 0 h).tail

theorem npCumsum_length (l : List ℚ) : (npCumsum l).length = l.length := by
  unfold npCumsum
  rw [List.length_drop, List.length_scanl]
  omega

theorem npCumsum_getD_zero (l : List ℚ) : (npCumsum l).getD 0 0 = l.getD 0 0 := by
  cases l with
  | nil => rfl
  | cons x xs =>
      cases xs with
      | nil => simp [npCumsum, List.scanl_cons, List.scanl_nil]
      | cons y ys => simp [npCumsum, List.scanl_cons]

theorem chain_getD_adj {α : Type} (d : α) {R : α → α → Prop} :
    ∀ (l : List α), List.Chain' R l → ∀ k, k + 1 < l.length →
      R (l.getD k d) (l.getD (k + 1) d) := by
  intro l
  induction l with
  | nil =>
      intro _ k hk
      simp at hk
  | cons x xs ih =>
      intro h k hk
      cases xs with
      | nil => simp at hk
      | cons y ys =>
          cases k with
          | zero =>
              exact (List.chain'_cons.mp h).1
          | succ k =>
              have := ih (List.chain'_cons.mp h).2 k (by simpa using hk)
              simpa using this

namespace Accumulator

theorem forwardPassGo_eq_self :
    ∀ (l : List ℤ) (prev : ℤ), List.Chain (· ≤ ·) prev l → forwardPassGo prev l = l := by
  intro l
  induction l with
  | nil => intro prev _; rfl
  | cons y ys ih =>
      intro prev h
      have h1 := (List.chain_cons.mp h).1
      have h2 := (List.chain_cons.mp h).2
      show (let y2 := if y < prev then prev else y; y2 :: forwardPassGo y2 ys) = y :: ys
      rw [if_neg (by omega : ¬ y < prev)]
      show y :: forwardPassGo y ys = y :: ys
      rw [ih y h2]

theorem forwardPass_eq_self (l : List ℤ) (h : List.Chain' (· ≤ ·) l) : forwardPass l = l := by
  cases l with
  | nil => rfl
  | cons x xs =>
      show x :: forwardPassGo x xs = x :: xs
      rw [forwardPassGo_eq_self xs x h]

theorem backwardPass_cons (x : ℤ) (xs : List ℤ) :
    backwardPass (x :: xs) = (match backwardPass xs with
      | [] => [x]
      | y :: _ => (if x < y - 1 then y - 1 else x) :: backwardPass xs) := rfl

theorem backwardPass_eq_self :
    ∀ (l : List ℤ), List.Chain' (fun a b => b ≤ a + 1) l → backwardPass l = l := by
  intro l
  induction l with
  | nil => intro _; rfl
  | cons x xs ih =>
      intro h
      rw [backwardPass_cons, ih h.tail]
      cases xs with
      | nil => rfl
      | cons y ys =>
          have h1 := (List.chain'_cons.mp h).1
          show (if x < y - 1 then y - 1 else x) :: y :: ys = x :: y :: ys
          rw [if_neg (by omega : ¬ x < y - 1)]

theorem capLowerGo_eq_self (i : ℤ) (l : List ℤ) (h : ∀ x ∈ l.head?, x ≤ i) :
    capLowerGo i l = l := by
  cases l with
  | nil => rfl
  | cons x xs =>
      have hx : x ≤ i := h x rfl
      show (if x > i then i :: capLowerGo (i + 1) xs else x :: xs) = x :: xs
      rw [if_neg (by omega : ¬ x > i)]

theorem chain_le_getD :
    ∀ (xs : List ℤ) (x : ℤ), List.Chain' (fun a b => b ≤ a + 1) (x :: xs) →
      ∀ k, k < xs.length → xs.getD k 0 ≤ x + k + 1 := by
  intro xs
  induction xs with
  | nil =>
      intro x _ k hk
      simp at hk
  | cons y ys ih =>
      intro x h k hk
      have h1 := (List.chain'_cons.mp h).1
      cases k with
      | zero =>
          simpa using h1
      | succ k =>
          have h2 := (List.chain'_cons.mp h).2
          have := ih y h2 k (by simpa using hk)
          rw [List.getD_cons_succ]
          push_cast
          omega

theorem capUpperGo_min :
    ∀ (l : List ℤ) (i : ℤ), List.Chain' (fun a b => b ≤ a + 1) l →
      capUpperGo i l = (List.range l.length).map (fun k => min (l.getD k 0) (i + k + 1)) := by
  intro l
  induction l with
  | nil =>
      intro i _
      rfl
  | cons x xs ih =>
      intro i h
      rw [List.length_cons, List.range_succ_eq_map, List.map_cons, List.map_map]
      show (if x > i + 1 then (i + 1) :: capUpperGo (i + 1) xs else x :: xs) = _
      by_cases hx : x > i + 1
      · rw [if_pos hx, ih (i + 1) h.tail]
        have hmin : min ((x :: xs).getD 0 0) (i + (0 : ℕ) + 1) = i + 1 := by
          simp only [List.getD_cons_zero]
          push_cast
          omega
        rw [hmin]
        congr 1
        apply List.map_congr_left
        intro k _
        simp only [Function.comp_apply, List.getD_cons_succ]
        congr 1
        push_cast
        ring
      · rw [if_neg hx]
        have hhead : min ((x :: xs).getD 0 0) (i + (0 : ℕ) + 1) = x := by
          simp only [List.getD_cons_zero]
          push_cast
          omega
        rw [hhead]
        congr 1
        have hbound := chain_le_getD xs x h
        apply List.ext_getElem
        · simp
        · intro n h1 h2
          simp only [List.getElem_map, List.getElem_range, Function.comp_apply,
            List.getD_cons_succ]
          have hn : n < xs.length := by simpa using h2
          have hb := hbound n hn
          rw [List.getD_eq_getElem _ _ hn]
          rw [List.getD_eq_getElem _ _ hn] at hb
          push_cast
          omega

end Accumulator

namespace Accumulator

theorem mA_empty (j : ℕ) : mA ∅ j = 0 := by
  unfold mA
  simp

theorem ell_empty {L : ℕ → ℤ} :
    ∀ j : ℕ, (∀ k, k < j → L k ≤ L (k + 1)) → ell L ∅ j = L j := by
  intro j
  induction j with
  | zero =>
      intro _
      show L 0 - mA ∅ 0 = L 0
      rw [mA_empty]
      ring
  | succ j ih =>
      intro h
      show max (ell L ∅ j) (L (j + 1) - mA ∅ (j + 1)) = L (j + 1)
      rw [mA_empty, ih (fun k hk => h k (by omega))]
      have := h j (by omega)
      omega

theorem uu_empty {U : ℕ → ℤ} {N : ℕ} {j : ℕ} (hj : j ≤ N)
    (hmono : ∀ k1 k2, k1 ≤ k2 → k2 ≤ N → U k1 ≤ U k2) : uu U ∅ N j = U j := by
  apply le_antisymm
  · have h1 := uu_le (A := ∅) (U := U) (le_refl j) hj
    rw [mA_empty] at h1
    omega
  · apply le_uu hj
    intro k h1 h2
    rw [mA_empty]
    have := hmono j k h1 h2
    omega

theorem sum_range_ind (A : Finset ℕ) :
    ∀ t : ℕ, ((List.range t).map (fun j => if j ∈ A then (1 : ℚ) else 0)).sum
      = ((mA A t : ℤ) : ℚ) := by
  intro t
  induction t with
  | zero =>
      rw [mA_zero]
      simp
  | succ t ih =>
      rw [List.range_succ, List.map_append, List.sum_append, ih, mA_succ]
      simp only [List.map_cons, List.map_nil, List.sum_cons, List.sum_nil]
      push_cast
      split_ifs <;> ring

end Accumulator

theorem replicate_eq_map_ind (N : ℕ) :
    List.replicate N (0 : ℚ)
      = (List.range N).map (fun j => if j ∈ (∅ : Finset ℕ) then (1 : ℚ) else 0) := by
  have h : (List.range N).map (fun j => if j ∈ (∅ : Finset ℕ) then (1 : ℚ) else 0)
      = (List.range N).map (fun _ => (0 : ℚ)) :=
    map_range_congr (fun j _ => by simp)
  rw [h, List.map_const', List.length_range]

theorem ceil_affine_chain {r : ℚ} (hr : 0 < r) (c : ℚ) {a b : ℚ} (h1 : a ≤ b) (h2 : b ≤ a + r) :
    ⌈(c + a) / r⌉ ≤ ⌈(c + b) / r⌉ ∧ ⌈(c + b) / r⌉ ≤ ⌈(c + a) / r⌉ + 1 := by
  constructor
  · exact Int.ceil_mono ((div_le_div_iff_of_pos_right hr).mpr (by linarith))
  · have hb : (c + b) / r ≤ (c + a) / r + 1 := by
      rw [div_add_one (ne_of_gt hr)]
      exact (div_le_div_iff_of_pos_right hr).mpr (by linarith)
    calc ⌈(c + b) / r⌉ ≤ ⌈(c + a) / r + 1⌉ := Int.ceil_mono hb
      _ = ⌈(c + a) / r⌉ + 1 := Int.ceil_add_one _

theorem floor_affine_chain {r : ℚ} (hr : 0 < r) (c : ℚ) {a b : ℚ} (h1 : a ≤ b) (h2 : b ≤ a + r) :
    ⌊(c + a) / r⌋ ≤ ⌊(c + b) / r⌋ ∧ ⌊(c + b) / r⌋ ≤ ⌊(c + a) / r⌋ + 1 := by
  constructor
  · exact Int.floor_mono ((div_le_div_iff_of_pos_right hr).mpr (by linarith))
  · have hb : (c + b) / r ≤ (c + a) / r + 1 := by
      rw [div_add_one (ne_of_gt hr)]
      exact (div_le_div_iff_of_pos_right hr).mpr (by linarith)
    calc ⌊(c + b) / r⌋ ≤ ⌊(c + a) / r + 1⌋ := Int.floor_mono hb
      _ = ⌊(c + a) / r⌋ + 1 := Int.floor_add_one _

/-- C1.  Corrected prefix charge bounds for the Accumulator SMART
algorithm: when every per-minute discharge is between 0 and the charging
power, the first-minute discharge is covered by the starting charge, and
the integer charge limits are pointwise feasible, every prefix `k` of the
planning window keeps the simulated charge
`startingCharge + onCount(k) * chargingPower/60 - D_k` within
`[0, capacity]`. -/
theorem accumulator_smart_charge_bounds
    (wantedSlots totalSlots : ℕ) (priceProfile : List ℚ) (chargingPower : ℚ)
    (dischargingProfile : List ℚ) (startingCharge capacity : ℚ)
    (hr : 0 < chargingPower)
    (hlenp : priceProfile.length = totalSlots)
    (hlend : dischargingProfile.length = totalSlots)
    (hw : wantedSlots ≤ totalSlots)
    (hd : ∀ d ∈ dischargingProfile, 0 ≤ d ∧ d ≤ chargingPower)
    (hd0 : dischargingProfile.getD 0 0 ≤ 60 * startingCharge)
    (hfeas : ∀ k, k < totalSlots →
      max ⌈(0 - startingCharge + (npCumsum (dischargingProfile.map (fun d => d / 60))).getD k 0)
            / (chargingPower / 60)⌉ 0
        ≤ min (min ⌊(capacity - startingCharge
                + (npCumsum (dischargingProfile.map (fun d => d / 60))).getD k 0)
              / (chargingPower / 60)⌋ (totalSlots : ℤ)) ((k : ℤ) + 1)) :
    ∀ k, k < wantedSlots →
      0 ≤ startingCharge
          + ((Accumulator.calculateSmartDemand wantedSlots totalSlots priceProfile
              chargingPower dischargingProfile startingCharge capacity).1.take (k + 1)).sum
            * (chargingPower / 60)
          - (npCumsum (dischargingProfile.map (fun d => d / 60))).getD k 0
      ∧ startingCharge
          + ((Accumulator.calculateSmartDemand wantedSlots totalSlots priceProfile
              chargingPower dischargingProfile startingCharge capacity).1.take (k + 1)).sum
            * (chargingPower / 60)
          - (npCumsum (dischargingProfile.map (fun d => d / 60))).getD k 0 ≤ capacity := by
  have hr' : (0 : ℚ) < chargingPower / 60 := by positivity
  set Dc := npCumsum (dischargingProfile.map (fun d => d / 60)) with hDc
  have hDlen : Dc.length = totalSlots := by
    rw [hDc, npCumsum_length, List.length_map, hlend]
  have hds : ∀ x ∈ dischargingProfile.map (fun d => d / 60), 0 ≤ x ∧ x ≤ chargingPower / 60 := by
    intro x hx
    obtain ⟨d, hd', rfl⟩ := List.mem_map.mp hx
    have hdd := hd d hd'
    constructor
    · exact div_nonneg hdd.1 (by norm_num)
    · exact (div_le_div_iff_of_pos_right (by norm_num : (0:ℚ) < 60)).mpr hdd.2
  have hDchain : List.Chain' (fun a b => a ≤ b ∧ b ≤ a + chargingPower / 60) Dc :=
    npCumsum_chain _ _ hds
  have hDadj : ∀ j, j + 1 < totalSlots →
      Dc.getD j 0 ≤ Dc.getD (j + 1) 0 ∧ Dc.getD (j + 1) 0 ≤ Dc.getD j 0 + chargingPower / 60 := by
    intro j hj
    exact chain_getD_adj 0 Dc hDchain j (by omega)
  have hD0 : Dc.getD 0 0 ≤ startingCharge := by
    have he : Dc.getD 0 0 = dischargingProfile.getD 0 0 / 60 := by
      rw [hDc, npCumsum_getD_zero]
      cases dischargingProfile with
      | nil => simp
      | cons d ds => simp
    rw [he]
    rw [div_le_iff₀ (by norm_num : (0:ℚ) < 60)]
    linarith
  set Lf : ℕ → ℤ := fun j => if j = 0 then 0 else
    max ⌈(0 - startingCharge + Dc.getD (j - 1) 0) / (chargingPower / 60)⌉ 0 with hLf
  set Uf : ℕ → ℤ := fun j => if j = 0 then 0 else
    min (min ⌊(capacity - startingCharge + Dc.getD (j - 1) 0) / (chargingPower / 60)⌋
      (totalSlots : ℤ)) (j : ℤ) with hUf
  have hLf0 : Lf 0 = 0 := by rw [hLf]; simp
  have hLf1 : ∀ j, j ≠ 0 →
      Lf j = max ⌈(0 - startingCharge + Dc.getD (j - 1) 0) / (chargingPower / 60)⌉ 0 := by
    intro j hj
    rw [hLf]
    exact if_neg hj
  have hUf1 : ∀ j, j ≠ 0 →
      Uf j = min (min ⌊(capacity - startingCharge + Dc.getD (j - 1) 0) / (chargingPower / 60)⌋
        (totalSlots : ℤ)) (j : ℤ) := by
    intro j hj
    rw [hUf]
    exact if_neg hj
  have hLfone : Lf 1 = 0 := by
    rw [hLf1 1 (by omega)]
    simp only [show (1:ℕ) - 1 = 0 from rfl]
    have harg : (0 - startingCharge + Dc.getD 0 0) / (chargingPower / 60) ≤ 0 := by
      apply div_nonpos_of_nonpos_of_nonneg
      · linarith
      · linarith
    have hc : ⌈(0 - startingCharge + Dc.getD 0 0) / (chargingPower / 60)⌉ ≤ 0 := by
      rw [show (0 : ℤ) = ((0 : ℤ)) from rfl]
      apply Int.ceil_le.mpr
      exact_mod_cast harg
    omega
  have hLsteps : ∀ j, j < totalSlots → Lf j ≤ Lf (j + 1) ∧ Lf (j + 1) ≤ Lf j + 1 := by
    intro j hj
    by_cases hj0 : j = 0
    · subst hj0
      rw [hLf0, hLfone]
      omega
    · rw [hLf1 j hj0, hLf1 (j + 1) (by omega)]
      have hadj := hDadj (j - 1) (by omega)
      rw [show j - 1 + 1 = j from by omega] at hadj
      have hc := ceil_affine_chain hr' (0 - startingCharge) hadj.1 hadj.2
      rw [show j + 1 - 1 = j from by omega]
      omega
  have hLfnn : ∀ j, 0 ≤ Lf j := by
    intro j
    by_cases hj0 : j = 0
    · subst hj0
      rw [hLf0]
    · rw [hLf1 j hj0]
      omega
  have hLUle : ∀ j, j ≤ totalSlots → Lf j ≤ Uf j := by
    intro j hj
    by_cases hj0 : j = 0
    · subst hj0
      rw [hLf0, hUf]
      simp
    · rw [hLf1 j hj0, hUf1 j hj0]
      have hf := hfeas (j - 1) (by omega)
      have hcast : ((j - 1 : ℕ) : ℤ) + 1 = (j : ℤ) := by omega
      omega
  have hDmono : ∀ a b, a ≤ b → b < totalSlots → Dc.getD a 0 ≤ Dc.getD b 0 := by
    intro a b hab hb
    obtain ⟨e, rfl⟩ := Nat.exists_eq_add_of_le hab
    clear hab
    induction e with
    | zero => exact le_refl _
    | succ e ihe =>
        have h1 : a + e < totalSlots := by omega
        have h2 := hDadj (a + e) (by omega)
        exact le_trans (ihe (by omega)) (by rw [show a + (e + 1) = a + e + 1 from by omega]; exact h2.1)
  have hUmono : ∀ k1 k2, k1 ≤ k2 → k2 ≤ totalSlots → Uf k1 ≤ Uf k2 := by
    intro k1 k2 h12 h2N
    have hUf0 : Uf 0 = 0 := by rw [hUf]; simp
    by_cases h10 : k1 = 0
    · subst h10
      rw [hUf0]
      by_cases h20 : k2 = 0
      · subst h20
        rw [hUf0]
      · have h1 := hLUle k2 h2N
        have h2 := hLfnn k2
        omega
    · have h20 : k2 ≠ 0 := by omega
      rw [hUf1 k1 h10, hUf1 k2 h20]
      have hfl : ⌊(capacity - startingCharge + Dc.getD (k1 - 1) 0) / (chargingPower / 60)⌋
          ≤ ⌊(capacity - startingCharge + Dc.getD (k2 - 1) 0) / (chargingPower / 60)⌋ := by
        apply Int.floor_mono
        apply (div_le_div_iff_of_pos_right hr').mpr
        have := hDmono (k1 - 1) (k2 - 1) (by omega) (by omega)
        linarith
      have hc : (k1 : ℤ) ≤ (k2 : ℤ) := by omega
      omega
  have hUf0 : Uf 0 = 0 := by rw [hUf]; simp
  have hlmap : List.map (fun x => x ⊔ 0)
      (List.map (fun Dv => ⌈(0 - startingCharge + Dv) / (chargingPower / 60)⌉) Dc)
      = Dc.map (fun Dv => ⌈(0 - startingCharge + Dv) / (chargingPower / 60)⌉ ⊔ 0) := by
    rw [List.map_map]
    rfl
  have hlchain : List.Chain' (fun p q : ℤ => p ≤ q ∧ q ≤ p + 1)
      (Dc.map (fun Dv => ⌈(0 - startingCharge + Dv) / (chargingPower / 60)⌉ ⊔ 0)) := by
    rw [List.chain'_map]
    refine hDchain.imp ?_
    intro a b hab
    have hc := ceil_affine_chain hr' (0 - startingCharge) hab.1 hab.2
    constructor
    · omega
    · omega
  have humap : List.map (fun x => x ⊓ (totalSlots : ℤ))
      (List.map (fun Dv => ⌊(capacity - startingCharge + Dv) / (chargingPower / 60)⌋) Dc)
      = Dc.map (fun Dv => ⌊(capacity - startingCharge + Dv) / (chargingPower / 60)⌋
          ⊓ (totalSlots : ℤ)) := by
    rw [List.map_map]
    rfl
  have huchain : List.Chain' (fun p q : ℤ => p ≤ q ∧ q ≤ p + 1)
      (Dc.map (fun Dv => ⌊(capacity - startingCharge + Dv) / (chargingPower / 60)⌋
        ⊓ (totalSlots : ℤ))) := by
    rw [List.chain'_map]
    refine hDchain.imp ?_
    intro a b hab
    have hc := floor_affine_chain hr' (capacity - startingCharge) hab.1 hab.2
    constructor
    · omega
    · omega
  have hlowhead : ∀ x ∈ (Dc.map
      (fun Dv => ⌈(0 - startingCharge + Dv) / (chargingPower / 60)⌉ ⊔ 0)).head?, x ≤ 0 := by
    intro x hx
    cases hDcases : Dc with
    | nil =>
        rw [hDcases] at hx
        simp at hx
    | cons dv ds =>
        rw [hDcases] at hx
        simp only [List.map_cons, List.head?_cons, Option.mem_def, Option.some.injEq] at hx
        have hdv : dv ≤ startingCharge := by
          have h0 := hD0
          rw [hDcases] at h0
          simpa using h0
        have harg : (0 - startingCharge + dv) / (chargingPower / 60) ≤ 0 :=
          div_nonpos_of_nonpos_of_nonneg (by linarith) (by linarith)
        have hc : ⌈(0 - startingCharge + dv) / (chargingPower / 60)⌉ ≤ 0 := by
          apply Int.ceil_le.mpr
          exact_mod_cast harg
        omega
  have hlowlist : (0 : ℤ) :: Accumulator.capLowerGo 0 (Accumulator.backwardPass
      (Accumulator.forwardPass (List.map (fun x => x ⊔ 0)
        (List.map (fun Dv => ⌈(0 - startingCharge + Dv) / (chargingPower / 60)⌉) Dc))))
      = (List.range (totalSlots + 1)).map Lf := by
    rw [hlmap,
        Accumulator.forwardPass_eq_self _ (hlchain.imp fun a b h => h.1),
        Accumulator.backwardPass_eq_self _ (hlchain.imp fun a b h => h.2),
        Accumulator.capLowerGo_eq_self 0 _ hlowhead]
    apply List.ext_getElem
    · simp [hDlen]
    · intro n h1 h2
      cases n with
      | zero =>
          simp only [List.getElem_cons_zero, List.getElem_map, List.getElem_range]
          exact hLf0.symm
      | succ n =>
          have hn : n < Dc.length := by
            simp only [List.length_cons, List.length_map] at h1
            omega
          simp only [List.getElem_cons_succ, List.getElem_map, List.getElem_range]
          rw [hLf1 (n + 1) (by omega)]
          simp only [Nat.add_sub_cancel]
          rw [List.getD_eq_getElem _ _ hn]
  have huplist : (0 : ℤ) :: Accumulator.capUpperGo 0 (Accumulator.backwardPass
      (Accumulator.forwardPass (List.map (fun x => x ⊓ (totalSlots : ℤ))
        (List.map (fun Dv => ⌊(capacity - startingCharge + Dv) / (chargingPower / 60)⌋) Dc))))
      = (List.range (totalSlots + 1)).map Uf := by
    rw [humap,
        Accumulator.forwardPass_eq_self _ (huchain.imp fun a b h => h.1),
        Accumulator.backwardPass_eq_self _ (huchain.imp fun a b h => h.2),
        Accumulator.capUpperGo_min _ 0 (huchain.imp fun a b h => h.2)]
    apply List.ext_getElem
    · simp [hDlen]
    · intro n h1 h2
      cases n with
      | zero =>
          simp only [List.getElem_cons_zero, List.getElem_map, List.getElem_range]
          exact hUf0.symm
      | succ n =>
          have hn : n < Dc.length := by
            simp only [List.length_cons, List.length_map, List.length_range] at h1
            omega
          have hn' : n < (Dc.map (fun Dv => ⌊(capacity - startingCharge + Dv)
              / (chargingPower / 60)⌋ ⊓ (totalSlots : ℤ))).length := by
            simpa using hn
          simp only [List.getElem_cons_succ, List.getElem_map, List.getElem_range]
          rw [List.getD_eq_getElem _ _ hn', List.getElem_map]
          rw [hUf1 (n + 1) (by omega)]
          simp only [Nat.add_sub_cancel]
          rw [List.getD_eq_getElem _ _ hn]
          push_cast
          omega
  have hlow0 : (List.range (totalSlots + 1)).map Lf
      = (List.range (totalSlots + 1)).map (Accumulator.ell Lf ∅) := by
    apply map_range_congr
    intro j hj
    exact (Accumulator.ell_empty j (fun kk hkk => (hLsteps kk (by omega)).1)).symm
  have hup0 : (List.range (totalSlots + 1)).map Uf
      = (List.range (totalSlots + 1)).map (Accumulator.uu Uf ∅ totalSlots) := by
    apply map_range_congr
    intro j hj
    exact (Accumulator.uu_empty (by omega) hUmono).symm
  have hperm := argsort_perm priceProfile (List.range totalSlots)
  have hnodup : (argsort priceProfile (List.range totalSlots)).Nodup :=
    hperm.nodup_iff.mpr (List.nodup_range totalSlots)
  have hmemo : ∀ s ∈ argsort priceProfile (List.range totalSlots), s < totalSlots :=
    fun s hs => List.mem_range.mp (hperm.mem_iff.mp hs)
  have hallo : ∀ j, j < totalSlots → j ∈ argsort priceProfile (List.range totalSlots) :=
    fun j hj => hperm.mem_iff.mpr (List.mem_range.mpr hj)
  set Astar := (argsort priceProfile (List.range totalSlots)).foldl
    (Accumulator.specStep Lf Uf totalSlots) ∅ with hAstar
  have hokA : Accumulator.okB Lf Uf totalSlots Astar :=
    Accumulator.greedy_okB hLf0 hLsteps hLUle hnodup hmemo hallo
  have hcp : (Accumulator.calculateSmartDemand wantedSlots totalSlots priceProfile
      chargingPower dischargingProfile startingCharge capacity).1
      = (List.range totalSlots).map (fun j => if j ∈ Astar then (1 : ℚ) else 0) := by
    unfold Accumulator.calculateSmartDemand
    dsimp only
    rw [hlenp, ← hDc, hlowlist, huplist, hlow0, hup0, replicate_eq_map_ind]
    rw [Accumulator.greedy_foldl_sim _ _ hmemo (fun s _ => Finset.not_mem_empty s) hnodup]
  intro k hk
  have hsum : ((Accumulator.calculateSmartDemand wantedSlots totalSlots priceProfile
      chargingPower dischargingProfile startingCharge capacity).1.take (k + 1)).sum
      = ((Accumulator.mA Astar (k + 1) : ℤ) : ℚ) := by
    rw [hcp, ← List.map_take, List.take_range, min_eq_left (by omega : k + 1 ≤ totalSlots),
      Accumulator.sum_range_ind]
  have hokk := hokA (k + 1) (by omega)
  rw [hLf1 (k + 1) (by omega), hUf1 (k + 1) (by omega)] at hokk
  simp only [Nat.add_sub_cancel] at hokk
  have hlo : ⌈(0 - startingCharge + Dc.getD k 0) / (chargingPower / 60)⌉
      ≤ Accumulator.mA Astar (k + 1) := le_trans (le_max_left _ _) hokk.1
  have hhi : Accumulator.mA Astar (k + 1)
      ≤ ⌊(capacity - startingCharge + Dc.getD k 0) / (chargingPower / 60)⌋ :=
    le_trans hokk.2 ((min_le_left _ _).trans (min_le_left _ _))
  have hlo' : (0 - startingCharge + Dc.getD k 0) / (chargingPower / 60)
      ≤ ((Accumulator.mA Astar (k + 1) : ℤ) : ℚ) := by
    exact_mod_cast Int.ceil_le.mp hlo
  have hhi' : ((Accumulator.mA Astar (k + 1) : ℤ) : ℚ)
      ≤ (capacity - startingCharge + Dc.getD k 0) / (chargingPower / 60) := by
    exact_mod_cast Int.le_floor.mp hhi
  rw [hsum]
  have h1 := (div_le_iff₀ hr').mp hlo'
  have h2 := (le_div_iff₀ hr').mp hhi'
  constructor
  · linarith
  · linarith

/-- C1, counterexample to the claim as stated.  With two slots, prices
`[1, 2]`, charging power 60, discharges `[0, 120]` (the second minute
discharges faster than the appliance can charge), starting charge 1 and
capacity 1, the greedy turns the appliance on in slot 0 and the simulated
charge after minute 0 is `1 + 1 - 0 = 2 > capacity`: the backward pass
raised the upper-limit entry above the hard capacity bound. -/
theorem accumulator_smart_overcharges :
    (Accumulator.calculateSmartDemand 2 2 [1, 2] 60 [0, 120] 1 1).1 = [1, 0]
    ∧ ¬ (1 + (((Accumulator.calculateSmartDemand 2 2 [1, 2] 60 [0, 120] 1 1).1.take 1).sum)
          * (60 / 60)
        - (npCumsum (([0, 120] : List ℚ).map (fun d => d / 60))).getD 0 0 ≤ 1) := by
  have e1 : List.map (fun d => d / 60) ([0, 120] : List ℚ) = [0, 2] := by norm_num
  have e2 : npCumsum ([0, 2] : List ℚ) = [0, 2] := by
    unfold npCumsum
    rw [List.scanl_cons, List.scanl_cons, List.scanl_nil]
    norm_num
  have ec : npCumsum (List.map (fun d => d / 60) ([0, 120] : List ℚ)) = [0, 2] := by
    rw [e1, e2]
  have e3 : List.map (fun Dv => ⌈(0 - 1 + Dv) / ((60 : ℚ) / 60)⌉) ([0, 2] : List ℚ)
      = [-1, 1] := by
    simp only [List.map_cons, List.map_nil]
    norm_num [Int.ceil_eq_iff]
  have e3' : List.map (fun x => x ⊔ 0) ([-1, 1] : List ℤ) = [0, 1] := by decide
  have e4 : List.map (fun Dv => ⌊(1 - 1 + Dv) / ((60 : ℚ) / 60)⌋) ([0, 2] : List ℚ)
      = [0, 2] := by
    simp only [List.map_cons, List.map_nil]
    norm_num [Int.floor_eq_iff]
  have e4' : List.map (fun x => x ⊓ ((2 : ℕ) : ℤ)) ([0, 2] : List ℤ) = [0, 2] := by decide
  have hprof : (Accumulator.calculateSmartDemand 2 2 [1, 2] 60 [0, 120] 1 1).1 = [1, 0] := by
    unfold Accumulator.calculateSmartDemand
    dsimp only
    rw [ec, e3, e3', e4, e4']
    decide
  refine ⟨hprof, ?_⟩
  rw [hprof, ec]
  norm_num

/-- C1, witness: the hypotheses of `accumulator_smart_charge_bounds` hold
at a concrete instance and the prefix charge bounds follow there. -/
theorem accumulator_smart_charge_bounds_witness :
    ((0 : ℚ) < 60)
    ∧ ([(5 : ℚ)].length = 1)
    ∧ ([(0 : ℚ)].length = 1)
    ∧ (1 ≤ 1)
    ∧ (∀ d ∈ [(0 : ℚ)], 0 ≤ d ∧ d ≤ 60)
    ∧ (([(0 : ℚ)].getD 0 0) ≤ 60 * 1)
    ∧ (∀ k, k < 1 →
        max ⌈(0 - 1 + (npCumsum (([(0 : ℚ)]).map (fun d => d / 60))).getD k 0)
              / ((60 : ℚ) / 60)⌉ 0
          ≤ min (min ⌊(1 - 1 + (npCumsum (([(0 : ℚ)]).map (fun d => d / 60))).getD k 0)
                / ((60 : ℚ) / 60)⌋ ((1 : ℕ) : ℤ)) ((k : ℤ) + 1))
    ∧ (∀ k, k < 1 →
        0 ≤ 1 + ((Accumulator.calculateSmartDemand 1 1 [5] 60 [0] 1 1).1.take (k + 1)).sum
              * ((60 : ℚ) / 60)
            - (npCumsum (([(0 : ℚ)]).map (fun d => d / 60))).getD k 0
        ∧ 1 + ((Accumulator.calculateSmartDemand 1 1 [5] 60 [0] 1 1).1.take (k + 1)).sum
              * ((60 : ℚ) / 60)
            - (npCumsum (([(0 : ℚ)]).map (fun d => d / 60))).getD k 0 ≤ 1) := by
  have hd : ∀ d ∈ [(0 : ℚ)], 0 ≤ d ∧ d ≤ 60 := by
    intro d hdm
    simp only [List.mem_singleton] at hdm
    subst hdm
    norm_num
  have hd0 : ([(0 : ℚ)].getD 0 0) ≤ 60 * 1 := by
    simp
  have hm : List.map (fun d => d / 60) [(0 : ℚ)] = [0] := by norm_num
  have hDval : npCumsum (List.map (fun d => d / 60) [(0 : ℚ)]) = [0] := by
    rw [hm]
    unfold npCumsum
    rw [List.scanl_cons, List.scanl_nil]
    norm_num
  have hfeas : ∀ k, k < 1 →
      max ⌈(0 - 1 + (npCumsum (([(0 : ℚ)]).map (fun d => d / 60))).getD k 0)
            / ((60 : ℚ) / 60)⌉ 0
        ≤ min (min ⌊(1 - 1 + (npCumsum (([(0 : ℚ)]).map (fun d => d / 60))).getD k 0)
              / ((60 : ℚ) / 60)⌋ ((1 : ℕ) : ℤ)) ((k : ℤ) + 1) := by
    intro k hk
    have hk0 : k = 0 := by omega
    subst hk0
    rw [hDval]
    simp only [List.getD_cons_zero]
    have hc : ⌈((0 : ℚ) - 1 + 0) / ((60 : ℚ) / 60)⌉ = -1 := by
      rw [Int.ceil_eq_iff]
      norm_num
    have hf : ⌊((1 : ℚ) - 1 + 0) / ((60 : ℚ) / 60)⌋ = 0 := by
      rw [Int.floor_eq_iff]
      norm_num
    rw [hc, hf]
    omega
  have hmain := accumulator_smart_charge_bounds 1 1 [5] 60 [0] 1 1 (by norm_num) (by norm_num)
    (by norm_num) (le_refl 1) hd hd0 hfeas
  exact ⟨by norm_num, by norm_num, by norm_num, le_refl 1, hd, hd0, hfeas, hmain⟩

end DemandManagement
